import Mathlib

/-!
Verification of the Smart Bill Manager OCR reconstruction core.

This file gives a shallow embedding, in Lean 4, of the spatial text
reconstruction and multi-pass selection engine found in
scripts/ocr_worker.py, scripts/ocr_cli.py and scripts/pdf_text_cli.py,
and proves (or refutes) the behavioural properties stated in the
specification.  Python floats are modelled as rationals, Python lists
as Lean lists, Python dicts holding OCR line data as a record type,
and the external OCR engine as an oracle supplying the outcome of each
invocation.
-/

/-- Model of the Python str.strip used throughout the scripts: drop
whitespace characters from both ends of the character list. -/
def strip_chars (s : List Char) : List Char :=
  ((s.dropWhile Char.isWhitespace).reverse.dropWhile Char.isWhitespace).reverse

/-- Python s.strip() on strings. -/
def py_strip (s : String) : String :=
  ⟨strip_chars s.data⟩

/-- Python s.lower() (ASCII case folding, which is all the worker relies on). -/
def py_lower (s : String) : String :=
  ⟨s.data.map Char.toLower⟩

/-- Model of the truthy helper of ocr_worker.py (lines 49-52): an
environment value is truthy when its stripped lowering is one of
"1", "true", "yes", "y", "on". -/
def truthy (v : Option String) : Bool :=
  match v with
  | none => false
  | some s => py_lower (py_strip s) ∈ ["1", "true", "yes", "y", "on"]

/-- Decimal digit run parser backing the model of the Python int()
constructor: a non-empty all-digit character list parses to its value. -/
def dec_digits : List Char → Option ℕ
  | [] => none
  | l =>
    l.foldl
      (fun acc c =>
        match acc with
        | none => none
        | some n =>
          if decide ('0' ≤ c) && decide (c ≤ '9') then
            some (n * 10 + (c.toNat - Char.toNat '0'))
          else none)
      (some 0)

/-- Model of the Python int() constructor on a stripped string: an
optional sign followed by at least one decimal digit. -/
def parse_int (s : String) : Option ℤ :=
  match s.data with
  | [] => none
  | c :: rest =>
    if c = '-' then (dec_digits rest).map fun n => -((n : ℤ))
    else if c = '+' then (dec_digits rest).map fun n => ((n : ℤ))
    else (dec_digits (c :: rest)).map fun n => ((n : ℤ))

/-- Model of the safe_int helper of ocr_worker.py (lines 55-59):
parse the stripped string as an integer, falling back to the default. -/
def safe_int (v : Option String) (d : ℤ) : ℤ :=
  match v with
  | none => d
  | some s => (parse_int (py_strip s)).getD d

/-- The profile normalisation performed at the top of
RapidOCRWorker.recognize (ocr_worker.py lines 448-450) and of
RapidOCRWorker._get_ocr (lines 368-370): empty profiles fall back to
"default", the profile is stripped and lowercased, and anything other
than "default" or "pdf" becomes "default". -/
def normalize_profile (p : String) : String :=
  let q := py_lower (py_strip (if p = "" then "default" else p))
  if q = "default" ∨ q = "pdf" then q else "default"

/-- One OCR line as built by RapidOCRWorker._build_result: a text, a
confidence, and a bounding box given as a list of corner points, each
point a list of coordinates.  An empty box models a missing box key. -/
structure Frag where
  text : String
  confidence : ℚ
  box : List (List ℚ)
deriving DecidableEq, Repr

/-- Characters counted as CJK by score_lines (code point in
[0x4E00, 0x9FFF]). -/
def isCJK (c : Char) : Bool :=
  decide (0x4E00 ≤ c.toNat) && decide (c.toNat ≤ 0x9FFF)

/-- Characters counted as digits by score_lines: the elif branch fires
only when the character is not CJK and lies between "0" and "9". -/
def isDigitBranch (c : Char) : Bool :=
  !isCJK c && (decide ('0' ≤ c) && decide (c ≤ '9'))

/-- Number of CJK characters of a text, as counted by score_lines. -/
def cjk_count (s : String) : ℕ :=
  (s.data.filter isCJK).length

/-- Number of digit characters of a text, as counted by score_lines. -/
def digit_count (s : String) : ℕ :=
  (s.data.filter isDigitBranch).length

/-- Model of score_lines (ocr_worker.py lines 62-83, identical in
ocr_cli.py lines 64-89): the empty list scores 0; otherwise content is
weighted (CJK 2.0, digits 1.2, the remaining characters 0.25), a flat
10.0 is added per line, and the sum is scaled by 0.25 plus the mean
confidence. -/
def score_lines (lines : List Frag) : ℚ :=
  if lines = [] then 0
  else
    let total_len : ℚ := (lines.map fun l => ((l.text.length : ℚ))).sum
    let total_conf : ℚ := (lines.map fun l => l.confidence).sum
    let cjk : ℚ := (lines.map fun l => ((cjk_count l.text : ℚ))).sum
    let digits : ℚ := (lines.map fun l => ((digit_count l.text : ℚ))).sum
    let avg_conf : ℚ := total_conf / (max (lines.length : ℚ) 1)
    let content : ℚ := cjk * 2 + digits * (6 / 5) + (max (total_len - cjk - digits) 0) * (1 / 4)
    (content + (lines.length : ℚ) * 10) * (1 / 4 + avg_conf)

/-- The per-line box metrics record built by reorder_lines_by_box. -/
structure PItem where
  line : Frag
  minx : ℚ
  maxx : ℚ
  miny : ℚ
  maxy : ℚ
  height : ℚ
deriving DecidableEq, Repr

/-- The pairs of coordinates extracted from a box: points that are
sequences of length at least two contribute their first two entries. -/
def box_points (box : List (List ℚ)) : List (ℚ × ℚ) :=
  box.filterMap fun p =>
    match p with
    | x :: y :: _ => some (x, y)
    | _ => none

/-- The metrics extraction of reorder_lines_by_box (ocr_worker.py lines
102-124): lines with an empty box, or whose box yields no usable
coordinates, produce no metrics. -/
def mk_metrics (line : Frag) : Option PItem :=
  if line.box = [] then none
  else
    match box_points line.box with
    | [] => none
    | q :: qs =>
      let minx := qs.foldl (fun a p => min a p.1) q.1
      let maxx := qs.foldl (fun a p => max a p.1) q.1
      let miny := qs.foldl (fun a p => min a p.2) q.2
      let maxy := qs.foldl (fun a p => max a p.2) q.2
      some { line := line, minx := minx, maxx := maxx, miny := miny, maxy := maxy,
             height := max 1 (maxy - miny) }

/-- Whether a line owns usable box metrics. -/
def has_metrics (line : Frag) : Bool :=
  (mk_metrics line).isSome

/-- The row-building scan of reorder_lines_by_box (lines 136-148): walk
the sorted items, starting a new row whenever the item top exceeds the
running maximum bottom plus the tolerance. -/
def cluster_fold (tol : ℚ) :
    List PItem → List (List PItem) → List PItem → Option ℚ → List (List PItem)
  | [], rows, cur, _ => if cur.isEmpty then rows else rows ++ [cur]
  | p :: rest, rows, cur, curMaxy =>
    match curMaxy with
    | none => cluster_fold tol rest rows (cur ++ [p]) (some p.maxy)
    | some m =>
      if !cur.isEmpty && decide (p.miny > m + tol) then
        cluster_fold tol rest (rows ++ [cur]) [p] (some p.maxy)
      else
        cluster_fold tol rest rows (cur ++ [p]) (some (max m p.maxy))

/-- The stable sort order used for processed items: the Python sort with
key (miny, minx). -/
def pitem_key_le (a b : PItem) : Prop :=
  a.miny < b.miny ∨ (a.miny = b.miny ∧ a.minx ≤ b.minx)

instance : DecidableRel pitem_key_le := fun a b => by
  unfold pitem_key_le; infer_instance

/-- Model of reorder_lines_by_box (ocr_worker.py lines 97-155, identical
in ocr_cli.py lines 103-167): compute metrics, sort by (top, left),
cluster into rows with tolerance max(5, 0.6 * median height), sort each
row by left, and return the reordered lines.  Lines without usable
metrics are silently dropped unless no line has metrics, in which case
the input is returned unchanged. -/
def reorder_lines_by_box (lines : List Frag) : List Frag :=
  if lines = [] then lines
  else
    let processed := lines.filterMap mk_metrics
    if processed = [] then lines
    else
      let heights := List.insertionSort (fun a b : ℚ => a ≤ b) (processed.map (fun p => p.height))
      let mid := heights.length / 2
      let median_h :=
        if heights.length % 2 = 1 then heights.getD mid 0
        else (heights.getD (mid - 1) 0 + heights.getD mid 0) / 2
      let row_tol := max 5 (median_h * (3 / 5))
      let sorted := List.insertionSort pitem_key_le processed
      let rows := cluster_fold row_tol sorted [] [] none
      ((rows.map fun row =>
          List.insertionSort (fun a b : PItem => a.minx ≤ b.minx) row).flatten).map
        fun p => p.line

/-- Bounding geometry derived for the label-value merge
(apply_label_value_layout, ocr_worker.py lines 195-217). -/
structure Geo where
  left : ℚ
  right : ℚ
  top : ℚ
  bottom : ℚ
  cx : ℚ
  cy : ℚ
deriving DecidableEq, Repr

/-- The box_of helper of apply_label_value_layout: extract usable corner
coordinates and compute the extremes and the centre of the box. -/
def box_of (f : Frag) : Option Geo :=
  if f.box = [] then none
  else
    match box_points f.box with
    | [] => none
    | q :: qs =>
      let left := qs.foldl (fun a p => min a p.1) q.1
      let right := qs.foldl (fun a p => max a p.1) q.1
      let top := qs.foldl (fun a p => min a p.2) q.2
      let bottom := qs.foldl (fun a p => max a p.2) q.2
      some { left := left, right := right, top := top, bottom := bottom,
             cx := (left + right) / 2, cy := (top + bottom) / 2 }

/-- The fixed label vocabulary of apply_label_value_layout
(ocr_worker.py lines 162-187). -/
def label_set : List String :=
  ["交易单号", "交易号", "商户单号", "订单号", "流水号", "转账单号",
   "支付时间", "付款时间", "创建时间", "交易时间", "转账时间",
   "商户全称", "商家", "收款方", "收款户", "收款账户", "付款方",
   "收单机构", "清算机构", "支付方式", "付款方式", "当前状态",
   "商品", "商品说明"]

/-- The is_label test: the stripped text is exactly one of the
vocabulary entries. -/
def is_label (t : String) : Bool :=
  label_set.contains (py_strip t)

/-- Default fragment used for (always in-range) list indexing. -/
def defFrag : Frag := { text := "", confidence := 0, box := [] }

/-- One indexed geometry entry of the merge scan. -/
abbrev GeoEntry := ℕ × Frag × Option Geo

/-- Eligibility and score of one candidate value fragment for a given
label (the inner loop of apply_label_value_layout, lines 236-253): the
candidate needs usable geometry, must not be the label itself nor
already consumed, must start on or right of the label (left at least
label right minus 5) and lie within 22 of the label centre line; its
score is 10 times the vertical distance plus the horizontal gap. -/
def lvl_candidate (label_idx : ℕ) (lb : Geo) (used : List ℕ) (entry : GeoEntry) :
    Option (ℕ × ℚ) :=
  match entry.2.2 with
  | none => none
  | some vb =>
    let j := entry.1
    if j = label_idx ∨ j ∈ used then none
    else if vb.left < lb.right - 5 then none
    else
      let dy := |vb.cy - lb.cy|
      if dy > 22 then none
      else some (j, dy * 10 + (vb.left - lb.right))

/-- The running-minimum scan used to select the best candidate: a
candidate replaces the current best only when its score is strictly
smaller. -/
def first_strict_min : List (ℕ × ℚ) → Option ℕ × ℚ → Option ℕ × ℚ
  | [], acc => acc
  | (j, s) :: rest, acc =>
    if s < acc.2 then first_strict_min rest (some j, s)
    else first_strict_min rest acc

/-- Selection of the best value candidate for one label, starting from
the sentinel score 1e18. -/
def lvl_find_best (geo : List GeoEntry) (used : List ℕ) (label_idx : ℕ) (lb : Geo) :
    Option ℕ :=
  (first_strict_min (geo.filterMap (lvl_candidate label_idx lb used)) (none, 10 ^ 18)).1

/-- State of the merge scan: the working copy of the lines and the set
of indices consumed as values. -/
structure LvlState where
  out : List Frag
  used : List ℕ
deriving DecidableEq, Repr

/-- One step of the merge scan (the outer loop body of
apply_label_value_layout, lines 225-262): skip entries without
geometry, non-labels, and already-consumed labels; otherwise find the
best value candidate, and when it has non-empty stripped text, splice
it into the label text (joined by a fullwidth colon) and mark it
consumed. -/
def lvl_step (geo : List GeoEntry) (s : LvlState) (entry : GeoEntry) : LvlState :=
  match entry.2.2 with
  | none => s
  | some lb =>
    let i := entry.1
    if !is_label entry.2.1.text then s
    else if i ∈ s.used then s
    else
      match lvl_find_best geo s.used i lb with
      | none => s
      | some b =>
        let val := py_strip (s.out.getD b defFrag).text
        if val = "" then s
        else
          { out := s.out.set i
              { s.out.getD i defFrag with
                  text := py_strip (s.out.getD i defFrag).text ++ "：" ++ val },
            used := b :: s.used }

/-- The full merge scan over all lines. -/
def lvl_scan (lines : List Frag) : LvlState :=
  let geo : List GeoEntry := lines.enum.map fun e => (e.1, e.2, box_of e.2)
  geo.foldl (lvl_step geo) { out := lines, used := [] }

/-- Model of apply_label_value_layout (ocr_worker.py lines 158-267):
only the "default" profile is processed; when no value was consumed the
input is returned unchanged, otherwise consumed value fragments are
removed from the (possibly spliced) working copy. -/
def apply_label_value_layout (lines : List Frag) (profile : String) : List Frag :=
  if profile ≠ "default" ∨ lines = [] then lines
  else
    let s := lvl_scan lines
    if s.used = [] then lines
    else (s.out.enum.filter fun e => !(s.used.contains e.1)).map fun e => e.2

/-- Bitmaps are modelled syntactically: the source image plus the PIL
operations applied to it by build_variants. -/
inductive Img where
  | src (w h : ℤ) (id : ℕ)
  | convertRGB (i : Img)
  | convertL (i : Img)
  | resize (i : Img) (w h : ℤ)
  | autocontrast (i : Img)
  | contrast (i : Img) (f : ℚ)
  | sharpness (i : Img) (f : ℚ)
  | rot180 (i : Img)
deriving DecidableEq, Repr

/-- Size bookkeeping of the modelled PIL operations. -/
def Img.size : Img → ℤ × ℤ
  | .src w h _ => (w, h)
  | .convertRGB i => i.size
  | .convertL i => i.size
  | .resize _ w h => (w, h)
  | .autocontrast i => i.size
  | .contrast i _ => i.size
  | .sharpness i _ => i.size
  | .rot180 i => i.size

/-- Model of build_variants as written in ocr_worker.py (lines 270-300):
a missing image yields no variants; for the "pdf" profile an enhanced
2x upscale is always produced, a grayscale 2x upscale is added at
multipass level at least 2, and a 180-degree rotation of the enhanced
variant is added when requested.  Note this version has no guard on the
multipass level itself. -/
def build_variants_worker (pil : Option Img) (profile : String) (multipass : ℤ)
    (rotate180 : Bool) : List (String × Img) :=
  match pil with
  | none => []
  | some img =>
    let base := Img.convertRGB img
    if profile = "pdf" then
      let w := base.size.1
      let h := base.size.2
      let scale : ℤ := 2
      let up := Img.sharpness (Img.contrast (Img.autocontrast (base.resize (w * scale) (h * scale))) (23 / 20)) (8 / 5)
      let v1 := [("enhance2x", up)]
      let v2 :=
        if multipass ≥ 2 then
          v1 ++ [("gray2x", Img.convertRGB ((Img.autocontrast base.convertL).resize (w * scale) (h * scale)))]
        else v1
      if rotate180 then v2 ++ [("enhance2x_rot180", up.rot180)] else v2
    else []

/-- Model of build_variants as written in ocr_cli.py (lines 170-201):
identical to the worker version except that a multipass level of 0 or
below also short-circuits to the empty list. -/
def build_variants_cli (pil : Option Img) (profile : String) (multipass : ℤ)
    (rotate180 : Bool) : List (String × Img) :=
  match pil with
  | none => []
  | some img =>
    if multipass ≤ 0 then []
    else
      let base := Img.convertRGB img
      if profile = "pdf" then
        let w := base.size.1
        let h := base.size.2
        let scale : ℤ := 2
        let up := Img.sharpness (Img.contrast (Img.autocontrast (base.resize (w * scale) (h * scale))) (23 / 20)) (8 / 5)
        let v1 := [("enhance2x", up)]
        let v2 :=
          if multipass ≥ 2 then
            v1 ++ [("gray2x", Img.convertRGB ((Img.autocontrast base.convertL).resize (w * scale) (h * scale)))]
          else v1
        if rotate180 then v2 ++ [("enhance2x_rot180", up.rot180)] else v2
      else []

/-- The closed enumeration of document zones used by pdf_text_cli.py. -/
inductive Zone where
  | header_left
  | header_right
  | password
  | buyer
  | items
  | seller
  | remarks
  | footer
deriving DecidableEq, Repr

/-- Model of region_for (pdf_text_cli.py lines 142-157): the heuristic
zone classification of a normalised centre point. -/
def region_for (cx cy : ℚ) : Zone :=
  if cy < 22 / 100 then (if cx ≥ 55 / 100 then Zone.header_right else Zone.header_left)
  else if cx ≥ 58 / 100 ∧ cy < 56 / 100 then Zone.password
  else if cy < 40 / 100 then Zone.buyer
  else if cy < 72 / 100 then Zone.items
  else if cy < 93 / 100 then (if cx < 58 / 100 then Zone.seller else Zone.remarks)
  else Zone.footer

/-- Modelled from the wording of specification section 4.2: the
first-matching-rule list for zoneFor, written independently of the
code, to be compared with region_for. -/
def zone_for_spec (cx cy : ℚ) : Zone :=
  if cy < 22 / 100 then (if cx ≥ 55 / 100 then Zone.header_right else Zone.header_left)
  else if cx ≥ 58 / 100 ∧ cy < 56 / 100 then Zone.password
  else if cy < 40 / 100 then Zone.buyer
  else if cy < 72 / 100 then Zone.items
  else if cy < 93 / 100 then (if cx < 58 / 100 then Zone.seller else Zone.remarks)
  else Zone.footer

/-- Oracle describing how the engine behaves during one
RapidOCRWorker._run_ocr_once request: the outcome of invoking the
current session, the outcome of constructing a replacement session,
and the outcome of invoking that replacement. -/
structure OnceEnv where
  firstRun : Except String ℕ
  rebuild : Except String ℕ
  secondRun : Except String ℕ
deriving Repr

/-- Model of RapidOCRWorker._run_ocr_once (ocr_worker.py lines 380-406):
run the engine; on failure drop and rebuild the session once and retry;
a second failure (of the rebuild or of the retried run) raises the
joined error messages.  The second component counts how many
drop-and-rebuild attempts the call performed. -/
def run_ocr_once (env : OnceEnv) : Except String (ℕ × List String) × ℕ :=
  match env.firstRun with
  | .ok o => (.ok (o, []), 0)
  | .error e =>
    let errs := ["run_failed: " ++ e]
    match env.rebuild with
    | .error e2 =>
      (.error (String.intercalate "; " (errs ++ ["recreate_failed: " ++ e2])), 1)
    | .ok _ =>
      match env.secondRun with
      | .ok o => (.ok (o, errs ++ ["recreated_session_ok"]), 1)
      | .error e2 =>
        (.error (String.intercalate "; " (errs ++ ["recreate_failed: " ++ e2])), 1)

/-- Model of RapidOCRWorker._profile_params (ocr_worker.py lines
358-365): the "pdf" profile widens the maximum side length, lowers the
minimum height and lowers the text score; every other profile uses the
engine defaults (no parameters). -/
def profile_params (profile : String) : List (String × ℚ) :=
  if profile = "pdf" then
    [("Global.max_side_len", 4096), ("Global.min_height", 10), ("Global.text_score", 7 / 20)]
  else []

/-- Model of RapidOCRWorker._get_ocr (ocr_worker.py lines 367-378): the
profile is normalised, a cached session is reused, and otherwise a
fresh session (identified by the supplied id) is built with the
profile parameters and cached. -/
def get_ocr (cache : List (String × ℕ)) (p : String) (fresh : ℕ) :
    ℕ × List (String × ℕ) :=
  let prof := normalize_profile p
  match cache.lookup prof with
  | some s => (s, cache)
  | none => (fresh, cache ++ [(prof, fresh)])

/-- The record built by RapidOCRWorker._build_result (ocr_worker.py
lines 408-439) for one engine invocation. -/
structure BuiltResult where
  text : String
  lines : List Frag
  line_count : ℕ
  score : ℚ
deriving DecidableEq, Repr

/-- Model of RapidOCRWorker._build_result: reorder the raw lines by box,
apply the label-value merge for the given profile, join the texts and
score the outcome. -/
def build_result (raw : List Frag) (profile : String) : BuiltResult :=
  let ordered := apply_label_value_layout (reorder_lines_by_box raw) profile
  { text := String.intercalate "\n" (ordered.map fun l => l.text),
    lines := ordered,
    line_count := ordered.length,
    score := score_lines ordered }

/-- The best-result selection fold of RapidOCRWorker.recognize
(ocr_worker.py lines 488-490, ocr_cli.py lines 403-405): a later result
replaces the current best only when its score is strictly greater. -/
def pick_best (best0 : String × BuiltResult) (vs : List (String × BuiltResult)) :
    String × BuiltResult :=
  vs.foldl (fun best nr => if nr.2.score > best.2.score then nr else best) best0

/-- Oracle describing the engine and the filesystem during one
recognize request: the raw lines produced by the k-th successful engine
invocation of the request, and whether saving the k-th variant bitmap
succeeded. -/
structure RecEnv where
  runs : ℕ → Except String (List Frag)
  saveOk : ℕ → Bool

/-- A per-variant debug record (variant name, score, line count,
character count). -/
abbrev DebugEntry := String × ℚ × ℕ × ℕ

/-- The variant loop of RapidOCRWorker.recognize (ocr_worker.py lines
466-490): walk the variants in order; a variant whose bitmap fails to
save is skipped entirely, otherwise the engine runs on it (`runIdx`
numbering successive engine invocations) and the scored result is
collected.  An engine failure aborts the whole request, as the
exception of _run_ocr_once propagates. -/
def variant_results (env : RecEnv) (profile : String) :
    List (ℕ × String × Img) → ℕ → Except String (List (String × BuiltResult))
  | [], _ => .ok []
  | (vidx, name, _) :: rest, runIdx =>
    if env.saveOk vidx then
      match env.runs runIdx with
      | .error e => .error e
      | .ok raw =>
        match variant_results env profile rest (runIdx + 1) with
        | .error e => .error e
        | .ok tl => .ok ((name, build_result raw profile) :: tl)
    else
      variant_results env profile rest runIdx

/-- The response payload assembled by RapidOCRWorker.recognize on
success. -/
structure RecPayload where
  text : String
  lines : List Frag
  line_count : ℕ
  profile : String
  variant : String
  debugInfo : Option (List DebugEntry)
deriving DecidableEq, Repr

/-- The possible outcomes of a recognize call: the two early error
returns, a propagated engine exception, or a success payload. -/
inductive RecResult where
  | notAvail (err : String)
  | notFound (err : String)
  | raised (err : String)
  | ok (payload : RecPayload)
deriving DecidableEq, Repr

/-- Model of RapidOCRWorker.recognize (ocr_worker.py lines 441-506): the
early worker/image checks, the profile normalisation, the environment
driven multipass level and rotation flag, the engine run on the
original image, the variant runs, and the selection of the best-scoring
result with first-seen-wins tie breaking. -/
def recognize (env : RecEnv) (workerOk : Bool) (workerErr : String) (imgExists : Bool)
    (pil : Option Img) (profileArg : String) (debug : Bool)
    (multipassEnv rotEnv : Option String) : RecResult :=
  if !workerOk then .notAvail ("RapidOCR worker not available: " ++ workerErr)
  else if !imgExists then .notFound "Image file not found"
  else
    let profile := normalize_profile profileArg
    let multipass := safe_int multipassEnv (if profile = "pdf" then 1 else 0)
    let rotate180 := truthy rotEnv || (profile = "pdf")
    match env.runs 0 with
    | .error e => .raised e
    | .ok raw0 =>
      let best0 := build_result raw0 profile
      let pilImg := if multipass > 0 then pil else none
      let variants := build_variants_worker pilImg profile multipass rotate180
      let indexed := (List.range variants.length).zip variants
      match variant_results env profile indexed 1 with
      | .error e => .raised e
      | .ok collected =>
        let best := pick_best ("original", best0) collected
        let dbg :=
          if debug then
            some ((("original", best0.score, best0.line_count, best0.text.length) : DebugEntry) ::
              collected.map fun nr => ((nr.1, nr.2.score, nr.2.line_count, nr.2.text.length) : DebugEntry))
          else none
        .ok { text := best.2.text, lines := best.2.lines, line_count := best.2.line_count,
              profile := profile, variant := best.1, debugInfo := dbg }

/-- One line read by the worker protocol loop, as seen after the
newline split: blank (skipped), unparsable (json.loads raises, with the
message and traceback of the exception), a ping request, or an OCR
request whose processing either returns a payload (here abstracted to
its serialised form) or raises. -/
inductive InLine where
  | blank
  | malformed (emsg tb : String)
  | ping (id : String)
  | request (id : String) (outcome : Except (String × String) ℕ)
deriving Repr

/-- One response line written by the worker protocol loop. -/
inductive Resp where
  | ok (id : String) (payload : ℕ)
  | pingOk (id : String)
  | fail (id : String) (err tb : String)
deriving DecidableEq, Repr

/-- Whether a protocol input line is skipped without any response. -/
def nonBlank : InLine → Bool
  | .blank => false
  | _ => true

/-- Model of the worker protocol loop (ocr_worker.py main, lines
514-542): read lines until end of input; blank lines are skipped; a
line that fails to parse produces one failure response with an empty
id; a ping produces one success response; a request produces exactly
one response whether its processing returns or raises. -/
def worker_loop : List InLine → List Resp
  | [] => []
  | .blank :: rest => worker_loop rest
  | .malformed e tb :: rest => .fail "" e tb :: worker_loop rest
  | .ping i :: rest => .pingOk i :: worker_loop rest
  | .request i (.ok p) :: rest => .ok i p :: worker_loop rest
  | .request i (.error (e, tb)) :: rest => .fail i e tb :: worker_loop rest

/-! ## Claim C5: the zone classifier is pure, total and first-match ordered -/

/-- C5: region_for is a pure total function of the normalised centre
coordinates.  It agrees everywhere with the first-matching-rule list of
specification section 4.2 (so every input pair receives exactly one
zone, determined only by the coordinates), and on the boundary value
centerY = 0.22 rule 1 does not fire: the point falls through to the
password rule when centerX is at least 0.58 and to the buyer rule
otherwise. -/
theorem c5_region_for_total_first_match :
    (∀ cx cy : ℚ, region_for cx cy = zone_for_spec cx cy) ∧
    (∀ cx : ℚ, region_for cx (22 / 100) =
      if (58 : ℚ) / 100 ≤ cx then Zone.password else Zone.buyer) := by
  refine ⟨fun cx cy => rfl, fun cx => ?_⟩
  by_cases h : (58 : ℚ) / 100 ≤ cx
  · rw [if_pos h]
    unfold region_for
    rw [if_neg (by norm_num), if_pos ⟨h, by norm_num⟩]
  · rw [if_neg h]
    unfold region_for
    rw [if_neg (by norm_num), if_neg (fun hc => h hc.1), if_pos (by norm_num)]

/-! ## Claim C8: the worker protocol loop survives malformed requests -/

/-- C8: the worker protocol loop never terminates on a malformed
request.  The loop is a homomorphism over input concatenation (after a
failure on any prefix it continues with the remaining lines exactly as
it would have fresh), it emits exactly one response per non-blank
input line, an unparsable line yields exactly one failure response
tagged with the empty id, and a request whose processing raises yields
exactly one failure response tagged with the parsed id.  The loop
consumes its entire input, reaching the terminated state only at end
of input. -/
theorem c8_worker_loop_resilient :
    (∀ xs ys : List InLine, worker_loop (xs ++ ys) = worker_loop xs ++ worker_loop ys) ∧
    (∀ xs : List InLine, (worker_loop xs).length = (xs.filter nonBlank).length) ∧
    (∀ e tb rest, worker_loop (InLine.malformed e tb :: rest) =
      Resp.fail "" e tb :: worker_loop rest) ∧
    (∀ i e tb rest, worker_loop (InLine.request i (Except.error (e, tb)) :: rest) =
      Resp.fail i e tb :: worker_loop rest) := by
  refine ⟨?_, ?_, fun e tb rest => rfl, fun i e tb rest => rfl⟩
  · intro xs ys
    induction xs with
    | nil => rfl
    | cons h t ih =>
      cases h with
      | blank => simpa [worker_loop] using ih
      | malformed e tb => simpa [worker_loop] using ih
      | ping i => simpa [worker_loop] using ih
      | request i outcome =>
        cases outcome with
        | ok p => simpa [worker_loop] using ih
        | error etb => cases etb with
          | mk e tb => simpa [worker_loop] using ih
  · intro xs
    induction xs with
    | nil => rfl
    | cons h t ih =>
      cases h with
      | blank => simpa [worker_loop, nonBlank] using ih
      | malformed e tb => simpa [worker_loop, nonBlank] using ih
      | ping i => simpa [worker_loop, nonBlank] using ih
      | request i outcome =>
        cases outcome with
        | ok p => simpa [worker_loop, nonBlank] using ih
        | error etb => cases etb with
          | mk e tb => simpa [worker_loop, nonBlank] using ih

/-! ## Claim C4: drop-and-rebuild retry of a failed engine invocation -/

/-- C4: when the engine invocation raises, the session is dropped and
rebuilt exactly once within the request (the rebuild counter is 1
exactly when the first run failed, 0 otherwise); if the retried
invocation succeeds the request succeeds, recording the original
failure and the rebuild success in the backend errors; if the retry
(or the rebuild itself) also fails, the request fails with the two
attempts' messages joined. -/
theorem c4_session_retry (env : OnceEnv) :
    ((run_ocr_once env).2 = if env.firstRun.isOk then 0 else 1) ∧
    (∀ e o, env.firstRun = .error e → env.rebuild.isOk → env.secondRun = .ok o →
      (run_ocr_once env).1 = .ok (o, ["run_failed: " ++ e, "recreated_session_ok"])) ∧
    (∀ e e2, env.firstRun = .error e → env.rebuild.isOk → env.secondRun = .error e2 →
      (run_ocr_once env).1 =
        .error (String.intercalate "; " ["run_failed: " ++ e, "recreate_failed: " ++ e2])) ∧
    (∀ e e2, env.firstRun = .error e → env.rebuild = .error e2 →
      (run_ocr_once env).1 =
        .error (String.intercalate "; " ["run_failed: " ++ e, "recreate_failed: " ++ e2])) := by
  obtain ⟨fr, rb, sr⟩ := env
  refine ⟨?_, ?_, ?_, ?_⟩
  · cases fr with
    | ok o => rfl
    | error e => cases rb with
      | ok s => cases sr <;> rfl
      | error e2 => rfl
  · intro e o h1 h2 h3
    cases fr with
    | ok o2 => exact absurd h1 (by simp)
    | error e1 =>
      obtain rfl : e1 = e := by injection h1
      cases rb with
      | ok s => subst h3; rfl
      | error e2 => simp [Except.isOk, Except.toBool] at h2
  · intro e e2 h1 h2 h3
    cases fr with
    | ok o2 => exact absurd h1 (by simp)
    | error e1 =>
      obtain rfl : e1 = e := by injection h1
      cases rb with
      | ok s => subst h3; rfl
      | error eb => simp [Except.isOk, Except.toBool] at h2
  · intro e e2 h1 h2
    cases fr with
    | ok o2 => exact absurd h1 (by simp)
    | error e1 =>
      obtain rfl : e1 = e := by injection h1
      subst h2
      rfl

/-- C4 witness: a request whose first invocation fails with E1 and
whose rebuilt session succeeds returns the retried output with both
backend messages; one whose retry fails with E2 raises the joined
message. -/
theorem c4_session_retry_witness :
    (run_ocr_once ⟨.error "E1", .ok 0, .ok 7⟩).1 =
      .ok (7, ["run_failed: E1", "recreated_session_ok"]) ∧
    (run_ocr_once ⟨.error "E1", .ok 0, .error "E2"⟩).1 =
      .error "run_failed: E1; recreate_failed: E2" :=
  ⟨(c4_session_retry _).2.1 "E1" 7 rfl rfl rfl,
   (c4_session_retry _).2.2.1 "E1" "E2" rfl rfl rfl⟩

/-! ## Claim C2: no variants at multipass level 0 -/

/-- C2 counterexample: the worker's build_variants (unlike the CLI's)
has no guard on the multipass level, so with a present image, the pdf
profile and multipass level 0 it still returns the enhance2x variant:
the claim that buildVariants returns the empty list whenever the
multipass level is 0 is false for ocr_worker.py. -/
theorem c2_counterexample :
    build_variants_worker (some (Img.src 100 100 0)) "pdf" 0 false ≠ [] := by
  simp [build_variants_worker]

/-- C2 amended: the CLI build_variants returns no variants for a
multipass level of 0 (or below) and none for a missing image at any
level; the worker build_variants returns no variants for a missing
image; and although the worker build_variants lacks the level guard,
the worker recognize passes it a missing image whenever the level is
not positive, so a request with multipass level 0 still reports the
original result with no variant run. -/
theorem c2_variants_level0_amended :
    (∀ pil prof rot (mp : ℤ), mp ≤ 0 → build_variants_cli pil prof mp rot = []) ∧
    (∀ prof rot (mp : ℤ), build_variants_cli none prof mp rot = []) ∧
    (∀ prof rot (mp : ℤ), build_variants_worker none prof mp rot = []) ∧
    (∀ env ok err ie pil p dbg rotEnv res,
      recognize env ok err ie pil p dbg (some "0") rotEnv = RecResult.ok res →
      res.variant = "original") := by
  refine ⟨?_, fun prof rot mp => rfl, fun prof rot mp => rfl, ?_⟩
  · intro pil prof rot mp hmp
    cases pil with
    | none => rfl
    | some img =>
      simp only [build_variants_cli]
      rw [if_pos hmp]
  · intro env ok err ie pil p dbg rotEnv res h
    cases ok with
    | false => simp [recognize] at h
    | true =>
      cases ie with
      | false => simp [recognize] at h
      | true =>
        have hm : safe_int (some "0") (if normalize_profile p = "pdf" then 1 else 0) = 0 := rfl
        simp only [recognize, Bool.not_true, Bool.false_eq_true, if_false] at h
        rw [hm] at h
        cases hr : env.runs 0 with
        | error e => rw [hr] at h; simp at h
        | ok raw0 =>
          rw [hr] at h
          rw [if_neg (by norm_num : ¬ ((0 : ℤ) > 0))] at h
          simp only [build_variants_worker, List.length_nil, List.range_zero,
            List.zip_nil_right, List.zip_nil_left, variant_results, pick_best,
            List.foldl_nil] at h
          cases h
          rfl

/-! ## Claim C7: first-seen result wins ties in the multi-pass selection -/

/-- C7: the multi-pass selection fold replaces the current best only on
a strictly greater score, so the selected result is the earliest
element of the sequence (the original result followed by the variant
results, in computation order) that strictly beats everything before
it and is not beaten by anything after it; in particular, when no
variant scores strictly higher than the original, the original result
and its variant name "original" are reported. -/
theorem c7_pick_best_first_seen_wins :
    (∀ (b0 : String × BuiltResult) (vs : List (String × BuiltResult)),
      ∃ pre x post, b0 :: vs = pre ++ x :: post ∧ pick_best b0 vs = x ∧
        (∀ y ∈ pre, y.2.score < x.2.score) ∧ (∀ y ∈ post, y.2.score ≤ x.2.score)) ∧
    (∀ (b0 : String × BuiltResult) (vs : List (String × BuiltResult)),
      (∀ v ∈ vs, v.2.score ≤ b0.2.score) → pick_best b0 vs = b0) := by
  constructor
  · intro b0 vs
    induction vs generalizing b0 with
    | nil => exact ⟨[], b0, [], rfl, rfl, by simp, by simp⟩
    | cons v tl ih =>
      by_cases h : v.2.score > b0.2.score
      · obtain ⟨pre, x, post, heq, hpick, hpre, hpost⟩ := ih v
        refine ⟨b0 :: pre, x, post, by rw [List.cons_append, ← heq], ?_, ?_, hpost⟩
        · show pick_best (if v.2.score > b0.2.score then v else b0) tl = x
          rw [if_pos h]; exact hpick
        · intro y hy
          rcases List.mem_cons.mp hy with rfl | hy2
          · have hvx : v.2.score ≤ x.2.score := by
              cases pre with
              | nil =>
                have hvx2 : v = x := by injection heq
                rw [hvx2]
              | cons p pr =>
                have hvp : v = p := by injection heq
                have hplt := hpre p (List.mem_cons_self p pr)
                rw [hvp]
                exact le_of_lt hplt
            exact lt_of_lt_of_le h hvx
          · exact hpre y hy2
      · obtain ⟨pre, x, post, heq, hpick, hpre, hpost⟩ := ih b0
        have hstep : pick_best b0 (v :: tl) = pick_best b0 tl := by
          show pick_best (if v.2.score > b0.2.score then v else b0) tl = pick_best b0 tl
          rw [if_neg h]
        have hvle : v.2.score ≤ b0.2.score := le_of_not_lt h
        cases pre with
        | nil =>
          have hx : b0 = x := by injection heq
          have htl : tl = post := by injection heq
          refine ⟨[], b0, v :: tl, rfl, by rw [hstep, hpick, ← hx], by simp, ?_⟩
          intro y hy
          rcases List.mem_cons.mp hy with rfl | hy2
          · exact hx ▸ hvle
          · exact hx ▸ hpost y (htl ▸ hy2)
        | cons p pr =>
          have hbp : b0 = p := by injection heq
          have htl : tl = pr ++ x :: post := by injection heq
          refine ⟨b0 :: v :: pr, x, post, by rw [htl]; simp, by rw [hstep, hpick], ?_, hpost⟩
          intro y hy
          have hb0x : b0.2.score < x.2.score := hbp ▸ hpre p (by simp)
          rcases List.mem_cons.mp hy with rfl | hy2
          · exact hb0x
          rcases List.mem_cons.mp hy2 with rfl | hy3
          · exact lt_of_le_of_lt hvle hb0x
          · exact hpre y (by simp [hy3])
  · intro b0 vs hle
    induction vs with
    | nil => rfl
    | cons v tl ih =>
      have hstep : pick_best b0 (v :: tl) = pick_best b0 tl := by
        show pick_best (if v.2.score > b0.2.score then v else b0) tl = pick_best b0 tl
        rw [if_neg (not_lt.mpr (hle v (by simp)))]
      rw [hstep]
      exact ih fun w hw => hle w (by simp [hw])

/-- C7 witness: with one variant scoring exactly the same as the
original, the original result is selected. -/
theorem c7_pick_best_first_seen_wins_witness :
    pick_best ("original", ⟨"t", [], 0, 5⟩) [("enhance2x", ⟨"u", [], 0, 5⟩)] =
      ("original", ⟨"t", [], 0, 5⟩) :=
  c7_pick_best_first_seen_wins.2 ("original", ⟨"t", [], 0, 5⟩)
    [("enhance2x", ⟨"u", [], 0, 5⟩)]
    (by intro v hv; rcases List.mem_singleton.mp hv with rfl; exact le_refl _)

/-! ## Claim C10: unknown profiles behave exactly like "default" -/

/-- Helper: a successful recognize response always carries the
normalised profile in its profile field. -/
theorem recognize_ok_profile_field (env : RecEnv) (ok : Bool) (err : String) (ie : Bool)
    (pil : Option Img) (pArg : String) (dbg : Bool) (me re : Option String)
    (res : RecPayload) :
    recognize env ok err ie pil pArg dbg me re = RecResult.ok res →
    res.profile = normalize_profile pArg := by
  intro h
  cases ok with
  | false => simp [recognize] at h
  | true =>
    cases ie with
    | false => simp [recognize] at h
    | true =>
      simp only [recognize, Bool.not_true, Bool.false_eq_true, if_false] at h
      cases hr : env.runs 0 with
      | error e => rw [hr] at h; simp at h
      | ok raw0 =>
        rw [hr] at h
        cases hv : variant_results env (normalize_profile pArg)
            ((List.range (build_variants_worker
                (if safe_int me (if normalize_profile pArg = "pdf" then 1 else 0) > 0
                  then pil else none)
                (normalize_profile pArg)
                (safe_int me (if normalize_profile pArg = "pdf" then 1 else 0))
                (truthy re || decide (normalize_profile pArg = "pdf"))).length).zip
              (build_variants_worker
                (if safe_int me (if normalize_profile pArg = "pdf" then 1 else 0) > 0
                  then pil else none)
                (normalize_profile pArg)
                (safe_int me (if normalize_profile pArg = "pdf" then 1 else 0))
                (truthy re || decide (normalize_profile pArg = "pdf")))) 1 with
        | error e => rw [hv] at h; simp at h
        | ok collected => rw [hv] at h; cases h; rfl

/-- C10: any profile string whose stripped lowercased form is neither
"default" nor "pdf" — including the empty string, which the code sends
through the or-"default" fallback before stripping and lowercasing —
is treated by the worker exactly as "default": the
normalisation yields "default", the session registry _get_ocr behaves
identically, the engine parameters are the defaults (empty), recognize
produces the identical outcome (so the label-value merge applies just
as under "default"), and a successful response reports profile
"default". -/
theorem c10_profile_fallback (p : String)
    (h1 : py_lower (py_strip p) ≠ "default") (h2 : py_lower (py_strip p) ≠ "pdf") :
    normalize_profile p = "default" ∧
    (∀ cache fresh, get_ocr cache p fresh = get_ocr cache "default" fresh) ∧
    profile_params (normalize_profile p) = [] ∧
    (∀ env ok err ie pil dbg me re,
      recognize env ok err ie pil p dbg me re =
        recognize env ok err ie pil "default" dbg me re) ∧
    (∀ env ok err ie pil dbg me re res,
      recognize env ok err ie pil p dbg me re = RecResult.ok res →
      res.profile = "default") := by
  have hnp : normalize_profile p = "default" := by
    by_cases hp : p = ""
    · subst hp
      decide
    · simp only [normalize_profile]
      rw [if_neg hp, if_neg (fun hor => hor.elim h1 h2)]
  have hnd : normalize_profile "default" = "default" := by decide
  refine ⟨hnp, ?_, ?_, ?_, ?_⟩
  · intro cache fresh
    simp only [get_ocr]
    rw [hnp, hnd]
  · rw [hnp]
    simp [profile_params]
  · intro env ok err ie pil dbg me re
    simp only [recognize]
    rw [hnp, hnd]
  · intro env ok err ie pil dbg me re res h
    rw [recognize_ok_profile_field env ok err ie pil p dbg me re res h]
    exact hnp

/-- C10 witness: the profile string "weird" normalises to "default" and
drives the session registry exactly as "default" does, and the empty
profile also normalises to "default". -/
theorem c10_profile_fallback_witness :
    (normalize_profile "weird" = "default" ∧
      get_ocr [] "weird" 5 = get_ocr [] "default" 5) ∧
    normalize_profile "" = "default" :=
  ⟨⟨(c10_profile_fallback "weird" (by decide) (by decide)).1,
    (c10_profile_fallback "weird" (by decide) (by decide)).2.1 [] 5⟩,
   (c10_profile_fallback "" (by decide) (by decide)).1⟩

/-- C2 witness: at multipass level 0 the CLI build_variants yields no
variants even for a present pdf-profile image. -/
theorem c2_variants_level0_amended_witness :
    build_variants_cli (some (Img.src 100 100 0)) "pdf" 0 false = [] :=
  c2_variants_level0_amended.1 (some (Img.src 100 100 0)) "pdf" false 0 (by norm_num)

/-! ## Claim C3: scoring of the empty list and appending a fragment -/

/-- Per-text bound: the CJK count plus the digit count never exceeds
the character count, because each character enters at most one of the
two filters. -/
theorem counts_le_length (l : List Char) :
    (l.filter isCJK).length + (l.filter isDigitBranch).length ≤ l.length := by
  induction l with
  | nil => simp
  | cons c t ih =>
    by_cases hc : isCJK c
    · have hd : isDigitBranch c = false := by simp [isDigitBranch, hc]
      simp only [List.filter_cons, hc, hd, if_true, if_false, List.length_cons,
        Bool.false_eq_true, List.length]
      omega
    · cases hd : isDigitBranch c
      · simp only [List.filter_cons, hc, hd, Bool.false_eq_true, if_false, List.length_cons]
        omega
      · simp only [List.filter_cons, hc, hd, Bool.false_eq_true, if_false, if_true,
          List.length_cons]
        omega

/-- Summed over a fragment list, the CJK and digit counts never exceed
the total text length. -/
theorem sums_le_total (L : List Frag) :
    (L.map fun l => ((cjk_count l.text : ℚ))).sum +
      (L.map fun l => ((digit_count l.text : ℚ))).sum ≤
    (L.map fun l => ((l.text.length : ℚ))).sum := by
  induction L with
  | nil => simp
  | cons g t ih =>
    simp only [List.map_cons, List.sum_cons]
    have hper : ((cjk_count g.text : ℚ)) + ((digit_count g.text : ℚ)) ≤
        ((g.text.length : ℚ)) := by
      have := counts_le_length g.text.data
      unfold cjk_count digit_count
      exact_mod_cast this
    linarith

/-- Expansion of score_lines on a non-empty list. -/
theorem score_lines_eq (L : List Frag) (h : ¬ L = []) :
    score_lines L =
      ((L.map fun l => ((cjk_count l.text : ℚ))).sum * 2 +
        (L.map fun l => ((digit_count l.text : ℚ))).sum * (6 / 5) +
        (max ((L.map fun l => ((l.text.length : ℚ))).sum -
              (L.map fun l => ((cjk_count l.text : ℚ))).sum -
              (L.map fun l => ((digit_count l.text : ℚ))).sum) 0) * (1 / 4) +
        (L.length : ℚ) * 10) *
      (1 / 4 + (L.map fun l => l.confidence).sum / (max ((L.length : ℚ)) 1)) := by
  simp only [score_lines, if_neg h]

/-- The arithmetic core of the corrected monotonicity property. -/
theorem score_mono_arith (K D T S n k d t c : ℚ)
    (hK : 0 ≤ K) (hD : 0 ≤ D) (hKD : K + D ≤ T)
    (hk : 0 ≤ k) (hd2 : 0 ≤ d) (hkd : k + d ≤ t) (ht1 : 1 ≤ t)
    (hS : 0 ≤ S) (_hc : 0 ≤ c) (hn1 : 1 ≤ n)
    (hmean : S / n ≤ c) :
    (K * 2 + D * (6 / 5) + (max (T - K - D) 0) * (1 / 4) + n * 10) *
        (1 / 4 + S / max n 1) ≤
      ((K + k) * 2 + (D + d) * (6 / 5) +
          (max (T + t - (K + k) - (D + d)) 0) * (1 / 4) + (n + 1) * 10) *
        (1 / 4 + (S + c) / max (n + 1) 1) := by
  have hn0 : (0 : ℚ) < n := lt_of_lt_of_le one_pos hn1
  have hn10 : (0 : ℚ) < n + 1 := by linarith
  rw [max_eq_left hn1, max_eq_left (by linarith : (1 : ℚ) ≤ n + 1),
    max_eq_left (by linarith : (0 : ℚ) ≤ T - K - D),
    max_eq_left (by linarith : (0 : ℚ) ≤ T + t - (K + k) - (D + d))]
  have hSc : S ≤ c * n := (div_le_iff₀ hn0).mp hmean
  have havg : S / n ≤ (S + c) / (n + 1) := by
    rw [div_le_div_iff₀ hn0 hn10]
    nlinarith
  have hA1 : (0 : ℚ) ≤ K * 2 + D * (6 / 5) + (T - K - D) * (1 / 4) + n * 10 := by
    nlinarith
  have hA12 : K * 2 + D * (6 / 5) + (T - K - D) * (1 / 4) + n * 10 ≤
      (K + k) * 2 + (D + d) * (6 / 5) + (T + t - (K + k) - (D + d)) * (1 / 4) +
        (n + 1) * 10 := by
    nlinarith
  have hB1 : (0 : ℚ) ≤ 1 / 4 + S / n := by positivity
  have hA2 : (0 : ℚ) ≤
      (K + k) * 2 + (D + d) * (6 / 5) + (T + t - (K + k) - (D + d)) * (1 / 4) +
        (n + 1) * 10 := le_trans hA1 hA12
  exact mul_le_mul hA12 (by linarith) hB1 hA2

/-- C3 counterexample: appending the fragment with text "a" and
confidence 0 (non-negative confidence, non-empty text) to a list
holding a single high-confidence digit-rich fragment strictly lowers
the score, because the mean confidence collapses: the claimed
monotonicity is false. -/
theorem c3_counterexample :
    (0 : ℚ) ≤ (Frag.mk "a" 0 []).confidence ∧ (Frag.mk "a" 0 []).text ≠ "" ∧
    score_lines ([Frag.mk "0000000000" 1 []] ++ [Frag.mk "a" 0 []]) <
      score_lines [Frag.mk "0000000000" 1 []] := by
  refine ⟨le_refl 0, by decide, ?_⟩
  have h1 : cjk_count "0000000000" = 0 := by decide
  have h2 : digit_count "0000000000" = 10 := by decide
  have h3 : cjk_count "a" = 0 := by decide
  have h4 : digit_count "a" = 0 := by decide
  have h5 : ("0000000000" : String).length = 10 := by decide
  have h6 : ("a" : String).length = 1 := by decide
  rw [score_lines_eq _ (by simp), score_lines_eq _ (by simp)]
  simp only [List.map_cons, List.map_nil, List.sum_cons, List.sum_nil, List.length_cons,
    List.length_nil, List.cons_append, List.nil_append, h1, h2, h3, h4, h5, h6]
  norm_num

/-- C3 corrected: the empty list scores exactly 0, and appending a
fragment with non-empty text never decreases the score provided the
existing confidences are non-negative and the appended fragment's
confidence is at least the current mean confidence (the unqualified
claim fails because a low-confidence fragment can drag the mean down
faster than its content adds, see the counterexample). -/
theorem c3_score_monotone_amended :
    score_lines [] = 0 ∧
    ∀ (L : List Frag) (f : Frag),
      (∀ g ∈ L, 0 ≤ g.confidence) → 0 ≤ f.confidence → f.text ≠ "" →
      ((L.map fun l => l.confidence).sum) / (max ((L.length : ℚ)) 1) ≤ f.confidence →
      score_lines L ≤ score_lines (L ++ [f]) := by
  constructor
  · rfl
  intro L f hg hf ht hmean
  have hlen : 1 ≤ (f.text.length : ℚ) := by
    have : f.text.length ≠ 0 := by
      intro h0
      apply ht
      cases hft : f.text with
      | mk l =>
        rw [hft] at h0
        cases l with
        | nil => rfl
        | cons a b => simp [String.length] at h0
    exact_mod_cast Nat.one_le_iff_ne_zero.mpr this
  have hkd : ((cjk_count f.text : ℚ)) + ((digit_count f.text : ℚ)) ≤
      ((f.text.length : ℚ)) := by
    have := counts_le_length f.text.data
    unfold cjk_count digit_count
    exact_mod_cast this
  by_cases hL : L = []
  · subst hL
    simp only [List.nil_append]
    have h00 : score_lines ([] : List Frag) = 0 := rfl
    rw [h00, score_lines_eq [f] (by simp)]
    simp only [List.map_cons, List.map_nil, List.sum_cons, List.sum_nil, List.length_cons,
      List.length_nil, Nat.cast_one, Nat.cast_zero, add_zero, zero_add, max_self, div_one]
    have hmax : (0 : ℚ) ≤ max (((f.text.length : ℚ)) - ((cjk_count f.text : ℚ)) -
        ((digit_count f.text : ℚ))) 0 := le_max_right _ _
    have hk : (0 : ℚ) ≤ ((cjk_count f.text : ℚ)) := by positivity
    have hd2 : (0 : ℚ) ≤ ((digit_count f.text : ℚ)) := by positivity
    have hB : (0 : ℚ) ≤ 1 / 4 + f.confidence := by positivity
    have hA : (0 : ℚ) ≤ ((cjk_count f.text : ℚ)) * 2 + ((digit_count f.text : ℚ)) * (6 / 5) +
        (max (((f.text.length : ℚ)) - ((cjk_count f.text : ℚ)) -
          ((digit_count f.text : ℚ))) 0) * (1 / 4) + 1 * 10 := by linarith
    nlinarith [mul_nonneg hA hB]
  · have hn1 : (1 : ℚ) ≤ (L.length : ℚ) := by
      have : 0 < L.length := List.length_pos.mpr hL
      exact_mod_cast this
    rw [score_lines_eq L hL, score_lines_eq (L ++ [f]) (by simp [hL])]
    simp only [List.map_append, List.sum_append, List.map_cons, List.map_nil,
      List.sum_cons, List.sum_nil, add_zero, List.length_append, List.length_cons,
      List.length_nil, Nat.cast_add, Nat.cast_one, Nat.cast_zero, zero_add]
    have hK : (0 : ℚ) ≤ (L.map fun l => ((cjk_count l.text : ℚ))).sum :=
      List.sum_nonneg (by
        intro x hx
        obtain ⟨g, _, rfl⟩ := List.mem_map.mp hx
        positivity)
    have hD : (0 : ℚ) ≤ (L.map fun l => ((digit_count l.text : ℚ))).sum :=
      List.sum_nonneg (by
        intro x hx
        obtain ⟨g, _, rfl⟩ := List.mem_map.mp hx
        positivity)
    have hS : (0 : ℚ) ≤ (L.map fun l => l.confidence).sum :=
      List.sum_nonneg (by
        intro x hx
        obtain ⟨g, hgL, rfl⟩ := List.mem_map.mp hx
        exact hg g hgL)
    have hk : (0 : ℚ) ≤ ((cjk_count f.text : ℚ)) := by positivity
    have hd2 : (0 : ℚ) ≤ ((digit_count f.text : ℚ)) := by positivity
    have hmean2 : (L.map fun l => l.confidence).sum / ((L.length : ℚ)) ≤ f.confidence := by
      rwa [max_eq_left hn1] at hmean
    exact score_mono_arith _ _ _ _ _ _ _ _ _ hK hD (sums_le_total L) hk hd2 hkd hlen hS hf
      hn1 hmean2

/-- C3 witness: appending an equal-confidence fragment to a singleton
list does not decrease the score. -/
theorem c3_score_monotone_amended_witness :
    score_lines [Frag.mk "x" 1 []] ≤
      score_lines ([Frag.mk "x" 1 []] ++ [Frag.mk "a" 1 []]) :=
  c3_score_monotone_amended.2 [Frag.mk "x" 1 []] (Frag.mk "a" 1 [])
    (by
      intro g hgm
      rcases List.mem_singleton.mp hgm with rfl
      norm_num)
    (by norm_num) (by decide)
    (by
      simp only [List.map_cons, List.map_nil, List.sum_cons, List.sum_nil,
        List.length_cons, List.length_nil, Nat.cast_one, Nat.cast_zero, add_zero, max_self]
      norm_num)

/-! ## Claim C1: multiset preservation of the row-clustering reorder -/

/-- Flattening the rows produced by the clustering scan recovers the
scanned items after the pending row and accumulator. -/
theorem cluster_fold_flatten (tol : ℚ) (l : List PItem) :
    ∀ (rows : List (List PItem)) (cur : List PItem) (my : Option ℚ),
      (cluster_fold tol l rows cur my).flatten = rows.flatten ++ cur ++ l := by
  induction l with
  | nil =>
    intro rows cur my
    cases cur with
    | nil => simp [cluster_fold]
    | cons a b => simp [cluster_fold]
  | cons p rest ih =>
    intro rows cur my
    cases my with
    | none =>
      rw [cluster_fold, ih]
      simp
    | some m =>
      rw [cluster_fold]
      by_cases hc : (!cur.isEmpty && decide (p.miny > m + tol)) = true
      · rw [if_pos hc, ih]
        simp
      · rw [if_neg hc, ih]
        simp

/-- The metrics record remembers the line it was built from. -/
theorem mk_metrics_line (l : Frag) (p : PItem) (h : mk_metrics l = some p) :
    p.line = l := by
  unfold mk_metrics at h
  split at h
  · exact absurd h (by simp)
  · split at h
    · exact absurd h (by simp)
    · have h2 := Option.some.inj h
      subst h2
      rfl

/-- Projecting the metric records back to lines yields exactly the
lines owning usable metrics, in their original order. -/
theorem filterMap_metrics_map_line (lines : List Frag) :
    (lines.filterMap mk_metrics).map (fun p => p.line) = lines.filter has_metrics := by
  induction lines with
  | nil => rfl
  | cons l t ih =>
    cases hm : mk_metrics l with
    | none =>
      simp only [List.filterMap_cons, hm, List.filter_cons, has_metrics, Option.isSome_none,
        Bool.false_eq_true, if_false]
      exact ih
    | some p =>
      simp only [List.filterMap_cons, hm, List.map_cons, List.filter_cons, has_metrics,
        Option.isSome_some, if_true]
      rw [mk_metrics_line l p hm, ih]

/-- The clustered, row-sorted, flattened item sequence is a permutation
of the processed items. -/
theorem reorder_core_perm (tol : ℚ) (processed : List PItem) :
    (((cluster_fold tol (List.insertionSort pitem_key_le processed) [] [] none).map
        (fun row => List.insertionSort (fun a b : PItem => a.minx ≤ b.minx) row)).flatten).Perm
      processed := by
  have hf2 : List.Forall₂ List.Perm
      ((cluster_fold tol (List.insertionSort pitem_key_le processed) [] [] none).map
        (fun row => List.insertionSort (fun a b : PItem => a.minx ≤ b.minx) row))
      (cluster_fold tol (List.insertionSort pitem_key_le processed) [] [] none) := by
    rw [List.forall₂_map_left_iff]
    rw [List.forall₂_same]
    intro row hrow
    exact List.perm_insertionSort _ row
  have h1 := List.Perm.flatten_congr hf2
  rw [cluster_fold_flatten] at h1
  simp only [List.flatten_nil, List.nil_append] at h1
  exact h1.trans (List.perm_insertionSort _ processed)

/-- C1 counterexample: with one fragment carrying a usable box and one
without, the reordered output drops the boxless fragment entirely: it
is not appended after the clustered rows, and the output is not a
permutation of the input. -/
theorem c1_counterexample :
    ¬ (reorder_lines_by_box
        [Frag.mk "a" 0 [[0, 0], [10, 5]], Frag.mk "b" 0 []]).Perm
      [Frag.mk "a" 0 [[0, 0], [10, 5]], Frag.mk "b" 0 []] := by
  have hm1 : mk_metrics (Frag.mk "a" 0 [[0, 0], [10, 5]]) =
      some ⟨Frag.mk "a" 0 [[0, 0], [10, 5]], 0, 10, 0, 5, 5⟩ := by
    simp only [mk_metrics, box_points, List.filterMap_cons, List.filterMap_nil]
    norm_num [min_def, max_def]
    intro h2
    exact absurd h2 (by simp)
  have hm2 : mk_metrics (Frag.mk "b" 0 []) = none := rfl
  have hproc : [Frag.mk "a" 0 [[0, 0], [10, 5]], Frag.mk "b" 0 []].filterMap mk_metrics =
      [⟨Frag.mk "a" 0 [[0, 0], [10, 5]], 0, 10, 0, 5, 5⟩] := by
    simp [List.filterMap_cons, hm1, hm2]
  have hr : reorder_lines_by_box [Frag.mk "a" 0 [[0, 0], [10, 5]], Frag.mk "b" 0 []] =
      [Frag.mk "a" 0 [[0, 0], [10, 5]]] := by
    simp only [reorder_lines_by_box, hproc]
    rw [if_neg (by simp), if_neg (by simp)]
    norm_num [List.insertionSort, List.orderedInsert, cluster_fold, pitem_key_le,
      max_def, List.getD]
  rw [hr]
  intro hperm
  have hlen := hperm.length_eq
  simp at hlen

/-- C1 corrected: when no fragment has usable box metrics the input is
returned unchanged; otherwise the output is a permutation of exactly
the fragments owning usable metrics, and fragments without metrics are
dropped rather than appended after the clustered rows. -/
theorem c1_reorder_multiset_amended (lines : List Frag) :
    (lines.filterMap mk_metrics = [] → reorder_lines_by_box lines = lines) ∧
    (lines.filterMap mk_metrics ≠ [] →
      (reorder_lines_by_box lines).Perm (lines.filter has_metrics)) := by
  constructor
  · intro h
    by_cases h0 : lines = []
    · simp [reorder_lines_by_box, h0]
    · simp only [reorder_lines_by_box]
      rw [if_neg h0, if_pos h]
  · intro h
    have h0 : lines ≠ [] := by
      intro h0
      subst h0
      simp at h
    simp only [reorder_lines_by_box]
    rw [if_neg h0, if_neg h]
    have hcore := reorder_core_perm
      (max 5
        ((if (List.insertionSort (fun a b : ℚ => a ≤ b)
              ((lines.filterMap mk_metrics).map fun p => p.height)).length % 2 = 1 then
            (List.insertionSort (fun a b : ℚ => a ≤ b)
              ((lines.filterMap mk_metrics).map fun p => p.height)).getD
              ((List.insertionSort (fun a b : ℚ => a ≤ b)
                ((lines.filterMap mk_metrics).map fun p => p.height)).length / 2) 0
          else
            ((List.insertionSort (fun a b : ℚ => a ≤ b)
                ((lines.filterMap mk_metrics).map fun p => p.height)).getD
                ((List.insertionSort (fun a b : ℚ => a ≤ b)
                  ((lines.filterMap mk_metrics).map fun p => p.height)).length / 2 - 1) 0 +
              (List.insertionSort (fun a b : ℚ => a ≤ b)
                ((lines.filterMap mk_metrics).map fun p => p.height)).getD
                ((List.insertionSort (fun a b : ℚ => a ≤ b)
                  ((lines.filterMap mk_metrics).map fun p => p.height)).length / 2) 0) / 2) *
          (3 / 5)))
      (lines.filterMap mk_metrics)
    have hmap := hcore.map (fun p : PItem => p.line)
    rw [filterMap_metrics_map_line] at hmap
    exact hmap

/-- C1 witness: on a singleton list with a usable box, the reordered
output is a permutation of the metric-owning fragments. -/
theorem c1_reorder_multiset_amended_witness :
    (reorder_lines_by_box [Frag.mk "a" 0 [[0, 0], [10, 5]]]).Perm
      ([Frag.mk "a" 0 [[0, 0], [10, 5]]].filter has_metrics) :=
  (c1_reorder_multiset_amended [Frag.mk "a" 0 [[0, 0], [10, 5]]]).2
    (by
      have hm1 : mk_metrics (Frag.mk "a" 0 [[0, 0], [10, 5]]) =
          some ⟨Frag.mk "a" 0 [[0, 0], [10, 5]], 0, 10, 0, 5, 5⟩ := by
        simp only [mk_metrics, box_points, List.filterMap_cons, List.filterMap_nil]
        norm_num [min_def, max_def]
        intro h2
        exact absurd h2 (by simp)
      simp [List.filterMap_cons, hm1])

/-! ## Claim C9: the label-value merge only rewrites merged label texts -/

/-- Convenience getD lemma: reading the updated slot. -/
theorem getD_set_self (l : List Frag) (i : ℕ) (a : Frag) (h : i < l.length) :
    (l.set i a).getD i defFrag = a := by
  simp [List.getD_eq_getElem?_getD, List.getElem?_set_self, h]

/-- Convenience getD lemma: reading any other slot. -/
theorem getD_set_ne (l : List Frag) (i j : ℕ) (a : Frag) (h : j ≠ i) :
    (l.set i a).getD j defFrag = l.getD j defFrag := by
  simp [List.getD_eq_getElem?_getD, List.getElem?_set_ne (fun he => h he.symm)]

/-- Convenience getD lemma: out-of-range reads give the default. -/
theorem getD_of_ge (l : List Frag) (i : ℕ) (h : l.length ≤ i) :
    l.getD i defFrag = defFrag := by
  simp [List.getD_eq_getElem?_getD, List.getElem?_eq_none h]

/-- The indexed geometry list of the merge scan, built from position k
(identical to mapping box_of over an enumeration starting at k). -/
def geo_from (k : ℕ) : List Frag → List GeoEntry
  | [] => []
  | f :: t => (k, f, box_of f) :: geo_from (k + 1) t

/-- geo_from agrees with the enumFrom-map formulation used in
lvl_scan. -/
theorem geo_from_eq (ls : List Frag) :
    ∀ k : ℕ, (ls.enumFrom k).map (fun e => (e.1, e.2, box_of e.2)) = geo_from k ls := by
  induction ls with
  | nil => intro k; rfl
  | cons f t ih =>
    intro k
    show (k, f, box_of f) :: (t.enumFrom (k + 1)).map (fun e => (e.1, e.2, box_of e.2)) =
      (k, f, box_of f) :: geo_from (k + 1) t
    rw [ih (k + 1)]

/-- lvl_scan re-expressed through geo_from. -/
theorem lvl_scan_eq (lines : List Frag) :
    lvl_scan lines =
      (geo_from 0 lines).foldl (lvl_step (geo_from 0 lines)) { out := lines, used := [] } := by
  unfold lvl_scan
  rw [show lines.enum = lines.enumFrom 0 from rfl, geo_from_eq]

/-- Every index mentioned in the geometry of a dropped suffix is in
range. -/
theorem geo_from_idx_lt (lines : List Frag) :
    ∀ (rest : List Frag) (k : ℕ), rest = lines.drop k →
      ∀ e ∈ geo_from k rest, e.1 < lines.length := by
  intro rest
  induction rest with
  | nil => intro k hdrop e he; exact absurd he (by simp [geo_from])
  | cons f t ih =>
    intro k hdrop e he
    have hk : k < lines.length := by
      by_contra hnk
      have : lines.drop k = [] := List.drop_eq_nil_iff.mpr (by omega)
      rw [this] at hdrop
      exact absurd hdrop (by simp)
    have ht : t = lines.drop (k + 1) := by
      have h2 : lines.drop (k + 1) = (lines.drop k).drop 1 := by
        rw [List.drop_drop, Nat.add_comm]
      rw [h2, ← hdrop]
      rfl
    rcases List.mem_cons.mp he with rfl | he2
    · exact hk
    · exact ih (k + 1) ht e he2

/-- Step equation: an entry without geometry is skipped. -/
theorem lvl_step_none (geo : List GeoEntry) (s : LvlState) (k : ℕ) (f : Frag) :
    lvl_step geo s (k, f, none) = s := rfl

/-- Step equation: a non-label entry is skipped. -/
theorem lvl_step_not_label (geo : List GeoEntry) (s : LvlState) (k : ℕ) (f : Frag)
    (lb : Geo) (h : is_label f.text = false) :
    lvl_step geo s (k, f, some lb) = s := by
  simp [lvl_step, h]

/-- Step equation: an already-consumed label entry is skipped. -/
theorem lvl_step_used (geo : List GeoEntry) (s : LvlState) (k : ℕ) (f : Frag)
    (lb : Geo) (h : is_label f.text = true) (h2 : k ∈ s.used) :
    lvl_step geo s (k, f, some lb) = s := by
  simp [lvl_step, h, h2]

/-- Step equation: a label with no candidate value is skipped. -/
theorem lvl_step_nobest (geo : List GeoEntry) (s : LvlState) (k : ℕ) (f : Frag)
    (lb : Geo) (h : is_label f.text = true) (h2 : k ∉ s.used)
    (h3 : lvl_find_best geo s.used k lb = none) :
    lvl_step geo s (k, f, some lb) = s := by
  simp [lvl_step, h, h2, h3]

/-- Step equation: a label whose best candidate has empty stripped text
is skipped. -/
theorem lvl_step_emptyval (geo : List GeoEntry) (s : LvlState) (k : ℕ) (f : Frag)
    (lb : Geo) (b : ℕ) (h : is_label f.text = true) (h2 : k ∉ s.used)
    (h3 : lvl_find_best geo s.used k lb = some b)
    (h4 : py_strip ((s.out.getD b defFrag).text) = "") :
    lvl_step geo s (k, f, some lb) = s := by
  simp only [List.getD_eq_getElem?_getD] at h4
  simp [lvl_step, h, h2, h3, h4]

/-- Step equation: a label with a non-empty best candidate splices the
value text into the label slot and consumes the value index. -/
theorem lvl_step_merge (geo : List GeoEntry) (s : LvlState) (k : ℕ) (f : Frag)
    (lb : Geo) (b : ℕ) (h : is_label f.text = true) (h2 : k ∉ s.used)
    (h3 : lvl_find_best geo s.used k lb = some b)
    (h4 : py_strip ((s.out.getD b defFrag).text) ≠ "") :
    lvl_step geo s (k, f, some lb) =
      { out := s.out.set k
          { s.out.getD k defFrag with
              text := py_strip ((s.out.getD k defFrag).text) ++ "：" ++
                py_strip ((s.out.getD b defFrag).text) },
        used := b :: s.used } := by
  simp only [List.getD_eq_getElem?_getD] at h4
  simp [lvl_step, List.getD_eq_getElem?_getD, h, h2, h3, h4]

/-- The running-minimum scan yields either the seed or a member of the
candidate list. -/
theorem first_strict_min_mem (l : List (ℕ × ℚ)) :
    ∀ acc : Option ℕ × ℚ, (first_strict_min l acc).1 = acc.1 ∨
      ∃ b s2, (first_strict_min l acc).1 = some b ∧ (b, s2) ∈ l := by
  induction l with
  | nil => intro acc; exact Or.inl rfl
  | cons p rest ih =>
    intro acc
    obtain ⟨j, s⟩ := p
    have hcons : first_strict_min ((j, s) :: rest) acc =
        if s < acc.2 then first_strict_min rest (some j, s)
        else first_strict_min rest acc := rfl
    rw [hcons]
    by_cases hlt : s < acc.2
    · rw [if_pos hlt]
      rcases ih (some j, s) with h1 | ⟨b, s2, h1, h2⟩
      · exact Or.inr ⟨j, s, h1, by simp⟩
      · exact Or.inr ⟨b, s2, h1, by simp [h2]⟩
    · rw [if_neg hlt]
      rcases ih acc with h1 | ⟨b, s2, h1, h2⟩
      · exact Or.inl h1
      · exact Or.inr ⟨b, s2, h1, by simp [h2]⟩

/-- A selected best candidate really is another, not yet consumed,
in-geometry fragment. -/
theorem lvl_find_best_facts (geo : List GeoEntry) (used : List ℕ) (i : ℕ) (lb : Geo)
    (b : ℕ) (h : lvl_find_best geo used i lb = some b) :
    (∃ f2 g2, (b, f2, g2) ∈ geo) ∧ b ≠ i ∧ b ∉ used := by
  unfold lvl_find_best at h
  rcases first_strict_min_mem (geo.filterMap (lvl_candidate i lb used)) (none, 10 ^ 18) with
    h1 | ⟨b2, s2, h1, h2⟩
  · rw [h] at h1; exact absurd h1 (by simp)
  · rw [h] at h1
    have hb : b2 = b := by injection h1.symm
    subst hb
    obtain ⟨e, he, hc⟩ := List.mem_filterMap.mp h2
    obtain ⟨j, f2, g2⟩ := e
    cases g2 with
    | none => exact absurd hc (by simp [lvl_candidate])
    | some vb =>
      simp only [lvl_candidate] at hc
      by_cases hj : j = i ∨ j ∈ used
      · rw [if_pos hj] at hc; exact absurd hc (by simp)
      · rw [if_neg hj] at hc
        by_cases hleft : vb.left < lb.right - 5
        · rw [if_pos hleft] at hc; exact absurd hc (by simp)
        · rw [if_neg hleft] at hc
          by_cases hdy : |vb.cy - lb.cy| > 22
          · rw [if_pos hdy] at hc; exact absurd hc (by simp)
          · rw [if_neg hdy] at hc
            have hjb : j = b2 := by
              have h5 := Option.some.inj hc
              exact congrArg Prod.fst h5
            subst hjb
            push_neg at hj
            exact ⟨⟨f2, some vb, he⟩, hj.1, hj.2⟩

/-- The per-index frame relation between the working state of the merge
scan and the input lines: a slot is either untouched, or it belongs to
a label of the input and only its text changed, into the stripped
input label text joined by a fullwidth colon with the (non-empty)
stripped text of some consumed slot. -/
def frame_prop (lines : List Frag) (s : LvlState) (i : ℕ) : Prop :=
  s.out.getD i defFrag = lines.getD i defFrag ∨
    (is_label ((lines.getD i defFrag).text) = true ∧
     (s.out.getD i defFrag).confidence = (lines.getD i defFrag).confidence ∧
     (s.out.getD i defFrag).box = (lines.getD i defFrag).box ∧
     ∃ j, j ∈ s.used ∧ j ≠ i ∧ j < lines.length ∧
       py_strip ((s.out.getD j defFrag).text) ≠ "" ∧
       (s.out.getD i defFrag).text =
         py_strip ((lines.getD i defFrag).text) ++ "：" ++
           py_strip ((s.out.getD j defFrag).text))

/-- The invariant of the merge scan after all entries with index below k
have been processed. -/
def lvl_inv (lines : List Frag) (k : ℕ) (s : LvlState) : Prop :=
  s.out.length = lines.length ∧
  (∀ j ∈ s.used, j < lines.length) ∧
  (∀ i, k ≤ i → s.out.getD i defFrag = lines.getD i defFrag) ∧
  (∀ i, i < lines.length → frame_prop lines s i)

/-- One merge-scan step preserves the invariant, advancing the
processed bound past the entry index. -/
theorem lvl_step_preserve (lines : List Frag) (geo : List GeoEntry)
    (hgeo : ∀ e ∈ geo, e.1 < lines.length)
    (k : ℕ) (hk : k < lines.length) (s : LvlState) (g : Option Geo)
    (hinv : lvl_inv lines k s) :
    lvl_inv lines (k + 1) (lvl_step geo s (k, lines.getD k defFrag, g)) := by
  obtain ⟨hlen, hused, huntouched, hframe⟩ := hinv
  have hweaken : lvl_inv lines (k + 1) s :=
    ⟨hlen, hused, fun i hi => huntouched i (by omega), hframe⟩
  cases g with
  | none => rw [lvl_step_none]; exact hweaken
  | some lb =>
    cases hl : is_label ((lines.getD k defFrag).text) with
    | false => rw [lvl_step_not_label _ _ _ _ _ hl]; exact hweaken
    | true =>
      by_cases hku : k ∈ s.used
      · rw [lvl_step_used _ _ _ _ _ hl hku]; exact hweaken
      · cases hb : lvl_find_best geo s.used k lb with
        | none => rw [lvl_step_nobest _ _ _ _ _ hl hku hb]; exact hweaken
        | some b =>
          by_cases hval : py_strip ((s.out.getD b defFrag).text) = ""
          · rw [lvl_step_emptyval _ _ _ _ _ _ hl hku hb hval]; exact hweaken
          · rw [lvl_step_merge _ _ _ _ _ _ hl hku hb hval]
            obtain ⟨⟨f2, g2, hbe⟩, hbk, hbu⟩ := lvl_find_best_facts geo s.used k lb b hb
            have hbn : b < lines.length := hgeo (b, f2, g2) hbe
            have houtk : s.out.getD k defFrag = lines.getD k defFrag :=
              huntouched k (le_refl k)
            have hkout : k < s.out.length := by omega
            refine ⟨by simp [hlen], ?_, ?_, ?_⟩
            · intro j hj
              rcases List.mem_cons.mp hj with rfl | hj2
              · exact hbn
              · exact hused j hj2
            · intro i hi
              show (s.out.set k _).getD i defFrag = lines.getD i defFrag
              rw [getD_set_ne _ _ _ _ (by omega)]
              exact huntouched i (by omega)
            · intro i hi
              by_cases hik : i = k
              · subst hik
                right
                refine ⟨hl, ?_, ?_, ?_⟩
                · show ((s.out.set i _).getD i defFrag).confidence = _
                  rw [getD_set_self _ _ _ hkout, houtk]
                · show ((s.out.set i _).getD i defFrag).box = _
                  rw [getD_set_self _ _ _ hkout, houtk]
                · refine ⟨b, by simp, hbk, hbn, ?_, ?_⟩
                  · show py_strip (((s.out.set i _).getD b defFrag).text) ≠ ""
                    rw [getD_set_ne _ _ _ _ hbk]
                    exact hval
                  · show ((s.out.set i _).getD i defFrag).text =
                      py_strip ((lines.getD i defFrag).text) ++ "：" ++
                        py_strip (((s.out.set i _).getD b defFrag).text)
                    rw [getD_set_self _ _ _ hkout, getD_set_ne _ _ _ _ hbk, houtk]
              · rcases hframe i hi with hfirst | ⟨hlab, hconf, hbox, j0, hj0u, hj0i, hj0n, hj0e, hj0t⟩
                · left
                  show (s.out.set k _).getD i defFrag = lines.getD i defFrag
                  rw [getD_set_ne _ _ _ _ hik]
                  exact hfirst
                · right
                  have hj0k : j0 ≠ k := fun he => hku (he ▸ hj0u)
                  refine ⟨hlab, ?_, ?_, j0, by simp [hj0u], hj0i, hj0n, ?_, ?_⟩
                  · show ((s.out.set k _).getD i defFrag).confidence = _
                    rw [getD_set_ne _ _ _ _ hik]
                    exact hconf
                  · show ((s.out.set k _).getD i defFrag).box = _
                    rw [getD_set_ne _ _ _ _ hik]
                    exact hbox
                  · show py_strip (((s.out.set k _).getD j0 defFrag).text) ≠ ""
                    rw [getD_set_ne _ _ _ _ hj0k]
                    exact hj0e
                  · show ((s.out.set k _).getD i defFrag).text = _
                    rw [getD_set_ne _ _ _ _ hik, getD_set_ne _ _ _ _ hj0k]
                    exact hj0t

/-- Walking the remaining geometry entries from position k preserves
the invariant up to the end of the lines. -/
theorem lvl_scan_aux (lines : List Frag) (geo : List GeoEntry)
    (hgeo : ∀ e ∈ geo, e.1 < lines.length) :
    ∀ (rest : List Frag) (k : ℕ), rest = lines.drop k →
      ∀ s : LvlState, lvl_inv lines k s →
        lvl_inv lines lines.length ((geo_from k rest).foldl (lvl_step geo) s) := by
  intro rest
  induction rest with
  | nil =>
    intro k hdrop s hinv
    simp only [geo_from, List.foldl_nil]
    obtain ⟨hlen, hused, hun, hfr⟩ := hinv
    refine ⟨hlen, hused, ?_, hfr⟩
    intro i hi
    rw [getD_of_ge _ _ (by omega), getD_of_ge _ _ hi]
  | cons f t ih =>
    intro k hdrop s hinv
    have hk : k < lines.length := by
      by_contra hnk
      have hnil : lines.drop k = [] := List.drop_eq_nil_iff.mpr (by omega)
      rw [hnil] at hdrop
      exact absurd hdrop (by simp)
    have hf : lines.getD k defFrag = f := by
      have h1 : lines.getD k defFrag = (lines.drop k).getD 0 defFrag := by
        simp [List.getD_eq_getElem?_getD, List.getElem?_drop]
      rw [h1, ← hdrop]
      rfl
    have ht : t = lines.drop (k + 1) := by
      have h2 : lines.drop (k + 1) = (lines.drop k).drop 1 := by
        rw [List.drop_drop, Nat.add_comm]
      rw [h2, ← hdrop]
      rfl
    show lvl_inv lines lines.length
      ((geo_from (k + 1) t).foldl (lvl_step geo) (lvl_step geo s (k, f, box_of f)))
    apply ih (k + 1) ht
    rw [← hf]
    exact lvl_step_preserve lines geo hgeo k hk s (box_of (lines.getD k defFrag))
      ⟨hinv.1, hinv.2.1, hinv.2.2.1, hinv.2.2.2⟩

/-- The full merge scan satisfies the frame invariant. -/
theorem lvl_scan_inv (lines : List Frag) :
    lvl_inv lines lines.length (lvl_scan lines) := by
  rw [lvl_scan_eq]
  exact lvl_scan_aux lines (geo_from 0 lines)
    (geo_from_idx_lt lines lines 0 (by simp)) lines 0 (by simp)
    { out := lines, used := [] }
    ⟨rfl, by simp, fun i hi => rfl, fun i hi => Or.inl rfl⟩

/-- C9: the label-value merge changes only the text of merged labels.
Every fragment of the output is, at its original position, either the
identical unmodified input fragment, or an input fragment matching the
label vocabulary whose confidence and box are unchanged and whose text
became the stripped input label text joined, by a fullwidth colon, with
the non-empty stripped text carried by the consumed value fragment at
merge time (for chained merges that value text is the value fragment's
already-merged text, as recorded in the final scan state). -/
theorem c9_merge_frame (lines : List Frag) :
    ∀ o ∈ apply_label_value_layout lines "default",
      ∃ i, i < lines.length ∧
        (o = lines.getD i defFrag ∨
          (is_label ((lines.getD i defFrag).text) = true ∧
           o.confidence = (lines.getD i defFrag).confidence ∧
           o.box = (lines.getD i defFrag).box ∧
           ∃ v j, v ≠ "" ∧
             o.text = py_strip ((lines.getD i defFrag).text) ++ "：" ++ v ∧
             j ≠ i ∧ j < lines.length ∧ j ∈ (lvl_scan lines).used ∧
             v = py_strip (((lvl_scan lines).out.getD j defFrag).text))) := by
  intro o ho
  simp only [apply_label_value_layout] at ho
  by_cases hg : "default" ≠ "default" ∨ lines = []
  · rw [if_pos hg] at ho
    rcases hg with hg | hg
    · exact absurd rfl hg
    · subst hg
      exact absurd ho (by simp)
  · rw [if_neg hg] at ho
    obtain ⟨hlen, hused, hun, hfr⟩ := lvl_scan_inv lines
    by_cases hu : (lvl_scan lines).used = []
    · rw [if_pos hu] at ho
      obtain ⟨i, hi, hgi⟩ := List.mem_iff_getElem.mp ho
      refine ⟨i, hi, Or.inl ?_⟩
      rw [List.getD_eq_getElem?_getD, List.getElem?_eq_getElem hi, hgi]
      rfl
    · rw [if_neg hu] at ho
      obtain ⟨e, he, heo⟩ := List.mem_map.mp ho
      have hef : e ∈ (lvl_scan lines).out.enum := (List.mem_filter.mp he).1
      have hee := List.mem_enum_iff_getElem?.mp hef
      have hei : e.1 < (lvl_scan lines).out.length := by
        by_contra hge
        rw [List.getElem?_eq_none (by omega)] at hee
        exact absurd hee (by simp)
      have hout : (lvl_scan lines).out.getD e.1 defFrag = o := by
        rw [List.getD_eq_getElem?_getD, hee]
        exact heo
      refine ⟨e.1, by omega, ?_⟩
      rcases hfr e.1 (by omega) with hfirst | ⟨hlab, hconf, hbox, j0, hj0u, hj0i, hj0n, hj0e, hj0t⟩
      · exact Or.inl (by rw [← hout, hfirst])
      · refine Or.inr ⟨hlab, by rw [← hout]; exact hconf, by rw [← hout]; exact hbox,
          py_strip (((lvl_scan lines).out.getD j0 defFrag).text), j0, hj0e,
          by rw [← hout]; exact hj0t, hj0i, hj0n, hj0u, rfl⟩

/-- C9 witness: on a single boxless fragment the merge is the identity
and the output fragment is the unchanged input fragment. -/
theorem c9_merge_frame_witness :
    ∃ i, i < [Frag.mk "x" 0 []].length ∧
      ((Frag.mk "x" 0 []) = [Frag.mk "x" 0 []].getD i defFrag ∨
        (is_label (([Frag.mk "x" 0 []].getD i defFrag).text) = true ∧
         (Frag.mk "x" 0 []).confidence = ([Frag.mk "x" 0 []].getD i defFrag).confidence ∧
         (Frag.mk "x" 0 []).box = ([Frag.mk "x" 0 []].getD i defFrag).box ∧
         ∃ v j, v ≠ "" ∧
           (Frag.mk "x" 0 []).text =
             py_strip (([Frag.mk "x" 0 []].getD i defFrag).text) ++ "：" ++ v ∧
           j ≠ i ∧ j < [Frag.mk "x" 0 []].length ∧
           j ∈ (lvl_scan [Frag.mk "x" 0 []]).used ∧
           v = py_strip (((lvl_scan [Frag.mk "x" 0 []]).out.getD j defFrag).text))) :=
  c9_merge_frame [Frag.mk "x" 0 []] (Frag.mk "x" 0 [])
    (by rw [show apply_label_value_layout [Frag.mk "x" 0 []] "default" =
          [Frag.mk "x" 0 []] from rfl]
        exact List.mem_singleton.mpr rfl)

/-! ## Claim C6: idempotence of the label-value merge -/

/-- Purely geometric candidate test and score of a fragment against a
label geometry (the index- and consumption-independent core of
lvl_candidate). -/
def gcand (lb : Geo) (f : Frag) : Option ℚ :=
  match box_of f with
  | none => none
  | some vb =>
    if vb.left < lb.right - 5 then none
    else if |vb.cy - lb.cy| > 22 then none
    else some (|vb.cy - lb.cy| * 10 + (vb.left - lb.right))

/-- lvl_candidate in terms of gcand. -/
theorem lvl_candidate_eq_gcand (i : ℕ) (lb : Geo) (u : List ℕ) (j : ℕ) (f : Frag) :
    lvl_candidate i lb u (j, f, box_of f) =
      if j = i ∨ j ∈ u then none else (gcand lb f).map (fun sc => (j, sc)) := by
  unfold lvl_candidate gcand
  cases box_of f with
  | none => simp
  | some vb =>
    by_cases h1 : j = i ∨ j ∈ u
    · simp [h1]
    · by_cases h2 : vb.left < lb.right - 5
      · simp [h1, h2]
      · by_cases h3 : |vb.cy - lb.cy| > 22
        · simp [h1, h2, h3]
        · simp [h1, h2, h3]

/-- box_of depends only on the box field. -/
theorem box_of_congr (f g : Frag) (h : f.box = g.box) : box_of f = box_of g := by
  unfold box_of
  rw [h]

/-- A non-whitespace character survives the leading strip. -/
theorem mem_dropWhile_ws (c : Char) (hc : c.isWhitespace = false) :
    ∀ s : List Char, c ∈ s → c ∈ s.dropWhile Char.isWhitespace := by
  intro s
  induction s with
  | nil => intro h; exact absurd h (by simp)
  | cons a t ih =>
    intro h
    cases ha : Char.isWhitespace a with
    | true =>
      rw [List.dropWhile_cons_of_pos ha]
      rcases List.mem_cons.mp h with rfl | h2
      · rw [hc] at ha; exact absurd ha (by simp)
      · exact ih h2
    | false =>
      rw [List.dropWhile_cons_of_neg (by simp [ha])]
      exact h

/-- A non-whitespace character survives the full strip. -/
theorem mem_strip_chars (c : Char) (hc : c.isWhitespace = false) (s : List Char)
    (h : c ∈ s) : c ∈ strip_chars s := by
  unfold strip_chars
  rw [List.mem_reverse]
  apply mem_dropWhile_ws c hc
  rw [List.mem_reverse]
  exact mem_dropWhile_ws c hc s h

/-- No vocabulary entry contains the fullwidth colon. -/
theorem label_set_no_colon : ∀ e ∈ label_set, ('：' : Char) ∉ e.data := by
  decide

/-- A text of the merged shape is never a vocabulary label. -/
theorem merged_not_label (a v : String) : is_label (a ++ "：" ++ v) = false := by
  unfold is_label
  have hmem : ('：' : Char) ∈ (py_strip (a ++ "：" ++ v)).data := by
    show ('：' : Char) ∈ strip_chars (a ++ "：" ++ v).data
    apply mem_strip_chars _ (by decide)
    have hdata : (a ++ "：" ++ v).data = a.data ++ "：".data ++ v.data := by
      simp [String.data_append]
    rw [hdata, show ("：" : String).data = [('：' : Char)] from rfl]
    simp
  cases hcon : label_set.contains (py_strip (a ++ "：" ++ v)) with
  | false => rfl
  | true =>
    have hin : py_strip (a ++ "：" ++ v) ∈ label_set := by simpa using hcon
    exact absurd hmem (label_set_no_colon _ hin)

/-- A text of the merged shape never strips to the empty string. -/
theorem strip_merged_ne (a v : String) : py_strip (a ++ "：" ++ v) ≠ "" := by
  intro h
  have hmem : ('：' : Char) ∈ (py_strip (a ++ "：" ++ v)).data := by
    show ('：' : Char) ∈ strip_chars (a ++ "：" ++ v).data
    apply mem_strip_chars _ (by decide)
    have hdata : (a ++ "：" ++ v).data = a.data ++ "：".data ++ v.data := by
      simp [String.data_append]
    rw [hdata, show ("：" : String).data = [('：' : Char)] from rfl]
    simp
  rw [h] at hmem
  exact absurd hmem (by simp)

/-- A text stripping to the empty string is never a label. -/
theorem strip_empty_not_label (t : String) (h : py_strip t = "") : is_label t = false := by
  unfold is_label
  rw [h]
  decide

/-- A label text never strips to the empty string. -/
theorem label_strip_ne (t : String) (h : is_label t = true) : py_strip t ≠ "" := by
  intro he
  rw [strip_empty_not_label t he] at h
  exact absurd h (by simp)

/-- Full characterisation of the running-minimum scan: either nothing
beats the seed and the scan returns it, or the scan returns the
earliest entry of strictly minimal score below the seed. -/
theorem fsm_char (l : List (ℕ × ℚ)) :
    ∀ acc : Option ℕ × ℚ,
      (first_strict_min l acc = acc ∧ ∀ q ∈ l, ¬(q.2 < acc.2)) ∨
      (∃ b sc pre post, l = pre ++ (b, sc) :: post ∧
        first_strict_min l acc = (some b, sc) ∧ sc < acc.2 ∧
        (∀ q ∈ pre, sc < q.2) ∧ (∀ q ∈ post, sc ≤ q.2)) := by
  induction l with
  | nil => intro acc; exact Or.inl ⟨rfl, by simp⟩
  | cons p rest ih =>
    intro acc
    obtain ⟨j, s⟩ := p
    have hcons : first_strict_min ((j, s) :: rest) acc =
        if s < acc.2 then first_strict_min rest (some j, s)
        else first_strict_min rest acc := rfl
    by_cases hlt : s < acc.2
    · rw [hcons, if_pos hlt] at *
      rcases ih (some j, s) with ⟨h1, h2⟩ | ⟨b, sc, pre, post, hdec, hres, hsc, hpre, hpost⟩
      · refine Or.inr ⟨j, s, [], rest, by simp, ?_, hlt, by simp, ?_⟩
        · exact h1
        · intro q hq
          exact le_of_not_lt (h2 q hq)
      · refine Or.inr ⟨b, sc, (j, s) :: pre, post, by rw [hdec]; rfl, ?_, ?_, ?_, hpost⟩
        · exact hres
        · exact lt_trans hsc hlt
        · intro q hq
          rcases List.mem_cons.mp hq with rfl | hq2
          · exact hsc
          · exact hpre q hq2
    · rcases ih acc with ⟨h1, h2⟩ | ⟨b, sc, pre, post, hdec, hres, hsc, hpre, hpost⟩
      · refine Or.inl ⟨?_, ?_⟩
        · rw [hcons, if_neg hlt, h1]
        · intro q hq
          rcases List.mem_cons.mp hq with rfl | hq2
          · exact hlt
          · exact h2 q hq2
      · refine Or.inr ⟨b, sc, (j, s) :: pre, post, by rw [hdec]; rfl, ?_, hsc, ?_, hpost⟩
        · rw [hcons, if_neg hlt, hres]
        · intro q hq
          rcases List.mem_cons.mp hq with rfl | hq2
          · exact lt_of_lt_of_le hsc (le_of_not_lt hlt)
          · exact hpre q hq2

/-- Characterisation of geometry entries: every entry of geo_from is an
offset-indexed slot of the underlying list. -/
theorem geo_from_mem_char (ls : List Frag) :
    ∀ (k : ℕ) (e : GeoEntry), e ∈ geo_from k ls →
      ∃ m, m < ls.length ∧
        e = (k + m, ls.getD m defFrag, box_of (ls.getD m defFrag)) := by
  induction ls with
  | nil => intro k e he; exact absurd he (by simp [geo_from])
  | cons f t ih =>
    intro k e he
    rcases List.mem_cons.mp he with rfl | he2
    · exact ⟨0, by simp, by simp⟩
    · obtain ⟨m, hm, hme⟩ := ih (k + 1) e he2
      refine ⟨m + 1, by simp; omega, ?_⟩
      rw [hme]
      have : k + 1 + m = k + (m + 1) := by omega
      rw [this]
      rfl

/-- Every slot of the underlying list appears among the geometry
entries. -/
theorem geo_from_mem_intro (ls : List Frag) :
    ∀ (k m : ℕ), m < ls.length →
      (k + m, ls.getD m defFrag, box_of (ls.getD m defFrag)) ∈ geo_from k ls := by
  induction ls with
  | nil => intro k m hm; exact absurd hm (by simp)
  | cons f t ih =>
    intro k m hm
    cases m with
    | zero => simp [geo_from]
    | succ m2 =>
      have h2 := ih (k + 1) m2 (by simp at hm; omega)
      have : k + (m2 + 1) = k + 1 + m2 := by omega
      rw [this]
      exact List.mem_cons_of_mem _ h2

/-- The geometry entries carry strictly increasing indices. -/
theorem geo_from_pairwise (ls : List Frag) :
    ∀ k : ℕ, (geo_from k ls).Pairwise (fun a b => a.1 < b.1) := by
  induction ls with
  | nil => intro k; simp [geo_from]
  | cons f t ih =>
    intro k
    refine List.Pairwise.cons ?_ (ih (k + 1))
    intro e he
    obtain ⟨m, hm, hme⟩ := geo_from_mem_char t (k + 1) e he
    rw [hme]
    show k < k + 1 + m
    omega

/-- filterMap with an index-preserving partial function keeps the
strictly-increasing-index property. -/
theorem pairwise_filterMap_fst (f : GeoEntry → Option (ℕ × ℚ))
    (hf : ∀ e q, f e = some q → q.1 = e.1) :
    ∀ l : List GeoEntry, l.Pairwise (fun a b => a.1 < b.1) →
      (l.filterMap f).Pairwise (fun a b => a.1 < b.1) := by
  intro l
  induction l with
  | nil => intro h; simp
  | cons e t ih =>
    intro h
    obtain ⟨he, ht⟩ := List.pairwise_cons.mp h
    rw [List.filterMap_cons]
    cases hfe : f e with
    | none => exact ih ht
    | some q =>
      refine List.Pairwise.cons ?_ (ih ht)
      intro q2 hq2
      obtain ⟨e2, he2, hfe2⟩ := List.mem_filterMap.mp hq2
      rw [hf e q hfe, hf e2 q2 hfe2]
      exact he e2 he2

/-- In an index-sorted decomposition, entries with smaller index than
the pivot sit in the prefix and entries with larger index in the
suffix. -/
theorem mem_decomp_side (pre post : List (ℕ × ℚ)) (b : ℕ) (sc : ℚ)
    (hpw : (pre ++ (b, sc) :: post).Pairwise (fun a c => a.1 < c.1)) :
    ∀ q ∈ pre ++ (b, sc) :: post,
      (q.1 < b → q ∈ pre) ∧ (b < q.1 → q ∈ post) := by
  obtain ⟨hpre, hmid, hcross⟩ := List.pairwise_append.mp hpw
  obtain ⟨hbpost, hpostpw⟩ := List.pairwise_cons.mp hmid
  intro q hq
  constructor
  · intro hlt
    rcases List.mem_append.mp hq with h1 | h2
    · exact h1
    · rcases List.mem_cons.mp h2 with rfl | h3
      · exact absurd hlt (by simp)
      · exact absurd (hbpost q h3) (by omega)
  · intro hlt
    rcases List.mem_append.mp hq with h1 | h2
    · exact absurd (hcross q h1 (b, sc) (by simp)) (by omega)
    · rcases List.mem_cons.mp h2 with rfl | h3
      · exact absurd hlt (by simp)
      · exact h3

/-- A candidate keeps the index of the geometry entry it came from. -/
theorem cand_fst (i : ℕ) (lb : Geo) (u : List ℕ) (e : GeoEntry) (q : ℕ × ℚ)
    (h : lvl_candidate i lb u e = some q) : q.1 = e.1 := by
  obtain ⟨j, f, g⟩ := e
  cases g with
  | none => exact absurd h (by simp [lvl_candidate])
  | some vb =>
    simp only [lvl_candidate] at h
    by_cases h1 : j = i ∨ j ∈ u
    · rw [if_pos h1] at h; exact absurd h (by simp)
    · rw [if_neg h1] at h
      by_cases h2 : vb.left < lb.right - 5
      · rw [if_pos h2] at h; exact absurd h (by simp)
      · rw [if_neg h2] at h
        by_cases h3 : |vb.cy - lb.cy| > 22
        · rw [if_pos h3] at h; exact absurd h (by simp)
        · rw [if_neg h3] at h
          have h4 := Option.some.inj h
          rw [← h4]

/-- The geometric score of the default fragment is undefined. -/
theorem gcand_defFrag (lb : Geo) : gcand lb defFrag = none := rfl

/-- Candidate-list membership, introduction form. -/
theorem cand_mem_intro (x : List Frag) (i : ℕ) (lb : Geo) (u : List ℕ) (j : ℕ) (sc : ℚ)
    (hj : j < x.length) (hne : j ≠ i) (hu : j ∉ u)
    (hg : gcand lb (x.getD j defFrag) = some sc) :
    (j, sc) ∈ (geo_from 0 x).filterMap (lvl_candidate i lb u) := by
  apply List.mem_filterMap.mpr
  refine ⟨(j, x.getD j defFrag, box_of (x.getD j defFrag)), ?_, ?_⟩
  · have h1 := geo_from_mem_intro x 0 j hj
    simpa using h1
  · rw [lvl_candidate_eq_gcand, if_neg (by tauto), hg]
    rfl

/-- Candidate-list membership, elimination form. -/
theorem cand_mem_elim (x : List Frag) (i : ℕ) (lb : Geo) (u : List ℕ) (q : ℕ × ℚ)
    (h : q ∈ (geo_from 0 x).filterMap (lvl_candidate i lb u)) :
    q.1 < x.length ∧ q.1 ≠ i ∧ q.1 ∉ u ∧ gcand lb (x.getD q.1 defFrag) = some q.2 := by
  obtain ⟨e, he, hce⟩ := List.mem_filterMap.mp h
  obtain ⟨m, hm, hme⟩ := geo_from_mem_char x 0 e he
  rw [hme] at hce
  simp only [Nat.zero_add] at hme hce
  rw [lvl_candidate_eq_gcand] at hce
  by_cases hcond : m = i ∨ m ∈ u
  · rw [if_pos hcond] at hce; exact absurd hce (by simp)
  · rw [if_neg hcond] at hce
    cases hgc : gcand lb (x.getD m defFrag) with
    | none => rw [hgc] at hce; exact absurd hce (by simp)
    | some sc =>
      rw [hgc] at hce
      have hq := Option.some.inj hce
      push_neg at hcond
      rw [← hq]
      exact ⟨hm, hcond.1, hcond.2, by rw [hgc]⟩

/-- The candidate list inherits strictly increasing indices. -/
theorem cand_pairwise (x : List Frag) (i : ℕ) (lb : Geo) (u : List ℕ) :
    ((geo_from 0 x).filterMap (lvl_candidate i lb u)).Pairwise (fun a b => a.1 < b.1) :=
  pairwise_filterMap_fst _ (cand_fst i lb u) _ (geo_from_pairwise x 0)

/-- The surviving (not consumed) slots of the scan output, with their
original indices, starting at position k. -/
def surv_from (used : List ℕ) (k : ℕ) : List Frag → List (ℕ × Frag)
  | [] => []
  | f :: t => (if used.contains k then [] else [(k, f)]) ++ surv_from used (k + 1) t

/-- The output filtering of apply_label_value_layout in terms of
surv_from. -/
theorem enum_filter_eq_surv_from (used : List ℕ) (l : List Frag) :
    ∀ k : ℕ, (l.enumFrom k).filter (fun e => !(used.contains e.1)) = surv_from used k l := by
  induction l with
  | nil => intro k; rfl
  | cons f t ih =>
    intro k
    show List.filter (fun e => !(used.contains e.1)) ((k, f) :: t.enumFrom (k + 1)) = _
    rw [List.filter_cons]
    cases hc : used.contains k with
    | true => simp only [surv_from, hc, if_true, Bool.not_true, Bool.false_eq_true, if_false,
        List.nil_append]; exact ih (k + 1)
    | false =>
      simp only [surv_from, hc, Bool.not_false, if_true, Bool.false_eq_true, if_false,
        List.singleton_append]
      rw [ih (k + 1)]

/-- Characterisation of surviving entries. -/
theorem surv_from_mem_char (used : List ℕ) (l : List Frag) :
    ∀ (k : ℕ) (e : ℕ × Frag), e ∈ surv_from used k l →
      ∃ m, m < l.length ∧ e = (k + m, l.getD m defFrag) ∧ used.contains (k + m) = false := by
  induction l with
  | nil => intro k e he; exact absurd he (by simp [surv_from])
  | cons f t ih =>
    intro k e he
    rw [surv_from] at he
    rcases List.mem_append.mp he with h1 | h2
    · cases hc : used.contains k with
      | true => rw [hc] at h1; exact absurd h1 (by simp)
      | false =>
        rw [hc] at h1
        simp only [if_true, Bool.false_eq_true, if_false, List.mem_singleton] at h1
        exact ⟨0, by simp, by simpa using h1, by simpa using hc⟩
    · obtain ⟨m, hm, hme, hmc⟩ := ih (k + 1) e h2
      refine ⟨m + 1, by simp only [List.length_cons]; omega, ?_, ?_⟩
      · rw [hme]
        have harith : k + 1 + m = k + (m + 1) := by omega
        rw [harith]
        rfl
      · have harith : k + 1 + m = k + (m + 1) := by omega
        rw [← harith]
        exact hmc

/-- Introduction form for surviving entries. -/
theorem surv_from_mem_intro (used : List ℕ) (l : List Frag) :
    ∀ (k m : ℕ), m < l.length → used.contains (k + m) = false →
      (k + m, l.getD m defFrag) ∈ surv_from used k l := by
  induction l with
  | nil => intro k m hm; intro h; exact absurd hm (by simp)
  | cons f t ih =>
    intro k m hm hc
    rw [surv_from]
    cases m with
    | zero =>
      simp only [Nat.add_zero] at hc
      rw [hc]
      simp
    | succ m2 =>
      apply List.mem_append_right
      have harith : k + (m2 + 1) = k + 1 + m2 := by omega
      rw [harith]
      rw [harith] at hc
      exact ih (k + 1) m2 (by simp at hm; omega) hc

/-- Surviving entries carry strictly increasing indices. -/
theorem surv_from_pairwise (used : List ℕ) (l : List Frag) :
    ∀ k : ℕ, (surv_from used k l).Pairwise (fun a b => a.1 < b.1) := by
  induction l with
  | nil => intro k; simp [surv_from]
  | cons f t ih =>
    intro k
    rw [surv_from]
    refine List.pairwise_append.mpr ⟨?_, ih (k + 1), ?_⟩
    · cases used.contains k <;> simp
    · intro a ha b hb
      cases hc : used.contains k with
      | true => rw [hc] at ha; exact absurd ha (by simp)
      | false =>
        rw [hc] at ha
        simp only [if_true, Bool.false_eq_true, if_false, List.mem_singleton] at ha
        obtain ⟨m, hm, hme, hmc⟩ := surv_from_mem_char used t (k + 1) b hb
        rw [ha, hme]
        show k < k + 1 + m
        omega

/-- What the scan knows, after processing a surviving unmerged label
with geometry lb, about every other fragment: either every eligible
candidate scores at least the sentinel 1e18, or there is a champion
candidate V with empty stripped text that strictly beats every earlier
eligible candidate and is not beaten by any later one. -/
def lvl_quiet (x : List Frag) (s : LvlState) (i : ℕ) (lb : Geo) : Prop :=
  (∀ j sc, j ≠ i → j ∉ s.used → gcand lb (x.getD j defFrag) = some sc →
    (10 : ℚ) ^ 18 ≤ sc) ∨
  (∃ V sc, V ≠ i ∧ V < x.length ∧ gcand lb (x.getD V defFrag) = some sc ∧
    sc < (10 : ℚ) ^ 18 ∧ py_strip ((s.out.getD V defFrag).text) = "" ∧
    (∀ j sc2, j ≠ i → j ∉ s.used → gcand lb (x.getD j defFrag) = some sc2 →
      (j < V → sc < sc2) ∧ (V < j → sc ≤ sc2)))

/-- The strengthened invariant of the merge scan: the frame invariant,
non-empty stripped text of every consumed slot, and the quiet property
of every processed surviving unmerged label. -/
def lvl_inv2 (x : List Frag) (k : ℕ) (s : LvlState) : Prop :=
  lvl_inv x k s ∧
  (∀ j ∈ s.used, py_strip ((s.out.getD j defFrag).text) ≠ "") ∧
  (∀ i lb, i < k → i < x.length → box_of (x.getD i defFrag) = some lb →
    is_label ((x.getD i defFrag).text) = true → i ∉ s.used →
    s.out.getD i defFrag = x.getD i defFrag → lvl_quiet x s i lb)

/-- One merge-scan step preserves the strengthened invariant. -/
theorem lvl_step_preserve2 (x : List Frag) (k : ℕ) (hk : k < x.length) (s : LvlState)
    (hinv2 : lvl_inv2 x k s) :
    lvl_inv2 x (k + 1)
      (lvl_step (geo_from 0 x) s (k, x.getD k defFrag, box_of (x.getD k defFrag))) := by
  obtain ⟨hinv, hne, hq⟩ := hinv2
  have hgeo : ∀ e ∈ geo_from 0 x, e.1 < x.length := geo_from_idx_lt x x 0 (by simp)
  have hinv1 := lvl_step_preserve x (geo_from 0 x) hgeo k hk s
    (box_of (x.getD k defFrag)) hinv
  obtain ⟨hlen, husedlt, huntouched, hframe⟩ := hinv
  cases hbox : box_of (x.getD k defFrag) with
  | none =>
    rw [hbox] at hinv1
    rw [lvl_step_none]
    rw [lvl_step_none] at hinv1
    refine ⟨hinv1, hne, ?_⟩
    intro i lb hik hin hbox2 hlab hiu hout
    by_cases hik2 : i < k
    · exact hq i lb hik2 hin hbox2 hlab hiu hout
    · have hieq : i = k := by omega
      subst hieq
      rw [hbox] at hbox2
      exact absurd hbox2 (by simp)
  | some lb0 =>
    cases hl : is_label ((x.getD k defFrag).text) with
    | false =>
      rw [hbox] at hinv1
      rw [lvl_step_not_label _ _ _ _ _ hl] at hinv1
      rw [lvl_step_not_label _ _ _ _ _ hl]
      refine ⟨hinv1, hne, ?_⟩
      intro i lb hik hin hbox2 hlab hiu hout
      by_cases hik2 : i < k
      · exact hq i lb hik2 hin hbox2 hlab hiu hout
      · have hieq : i = k := by omega
        subst hieq
        rw [hlab] at hl
        exact absurd hl (by simp)
    | true =>
      by_cases hku : k ∈ s.used
      · rw [hbox] at hinv1
        rw [lvl_step_used _ _ _ _ _ hl hku] at hinv1
        rw [lvl_step_used _ _ _ _ _ hl hku]
        refine ⟨hinv1, hne, ?_⟩
        intro i lb hik hin hbox2 hlab hiu hout
        by_cases hik2 : i < k
        · exact hq i lb hik2 hin hbox2 hlab hiu hout
        · have hieq : i = k := by omega
          subst hieq
          exact absurd hku hiu
      · cases hb : lvl_find_best (geo_from 0 x) s.used k lb0 with
        | none =>
          rw [hbox] at hinv1
          rw [lvl_step_nobest _ _ _ _ _ hl hku hb] at hinv1
          rw [lvl_step_nobest _ _ _ _ _ hl hku hb]
          refine ⟨hinv1, hne, ?_⟩
          intro i lb hik hin hbox2 hlab hiu hout
          by_cases hik2 : i < k
          · exact hq i lb hik2 hin hbox2 hlab hiu hout
          · have hieq : i = k := by omega
            subst hieq
            rw [hbox2] at hbox
            have hlb : lb = lb0 := Option.some.inj hbox
            subst hlb
            rcases fsm_char ((geo_from 0 x).filterMap (lvl_candidate i lb s.used))
                (none, 10 ^ 18) with ⟨hres, hall⟩ |
                ⟨b2, sc2, pre, post, hdec, hres, hsc, hpre, hpost⟩
            · left
              intro j sc hji hju hgc
              by_cases hjn : j < x.length
              · have hmem := cand_mem_intro x i lb s.used j sc hjn hji hju hgc
                exact le_of_not_lt (hall (j, sc) hmem)
              · rw [getD_of_ge _ _ (by omega), gcand_defFrag] at hgc
                exact absurd hgc (by simp)
            · exfalso
              have h5 : lvl_find_best (geo_from 0 x) s.used i lb = some b2 := by
                unfold lvl_find_best
                rw [hres]
              rw [hb] at h5
              exact absurd h5 (by simp)
        | some b =>
          by_cases hval : py_strip ((s.out.getD b defFrag).text) = ""
          · rw [hbox] at hinv1
            rw [lvl_step_emptyval _ _ _ _ _ _ hl hku hb hval] at hinv1
            rw [lvl_step_emptyval _ _ _ _ _ _ hl hku hb hval]
            refine ⟨hinv1, hne, ?_⟩
            intro i lb hik hin hbox2 hlab hiu hout
            by_cases hik2 : i < k
            · exact hq i lb hik2 hin hbox2 hlab hiu hout
            · have hieq : i = k := by omega
              subst hieq
              rw [hbox2] at hbox
              have hlb : lb = lb0 := Option.some.inj hbox
              subst hlb
              rcases fsm_char ((geo_from 0 x).filterMap (lvl_candidate i lb s.used))
                  (none, 10 ^ 18) with ⟨hres, hall⟩ |
                  ⟨b2, sc2, pre, post, hdec, hres, hsc, hpre, hpost⟩
              · exfalso
                have h5 : lvl_find_best (geo_from 0 x) s.used i lb = none := by
                  unfold lvl_find_best
                  rw [hres]
                rw [hb] at h5
                exact absurd h5 (by simp)
              · have hbb : b2 = b := by
                  have h5 : lvl_find_best (geo_from 0 x) s.used i lb = some b2 := by
                    unfold lvl_find_best
                    rw [hres]
                  rw [hb] at h5
                  exact Option.some.inj h5.symm
                subst hbb
                have hmemb : (b2, sc2) ∈
                    (geo_from 0 x).filterMap (lvl_candidate i lb s.used) := by
                  rw [hdec]
                  simp
                obtain ⟨hbn, hbi, hbu, hbg⟩ :=
                  cand_mem_elim x i lb s.used (b2, sc2) hmemb
                right
                refine ⟨b2, sc2, hbi, hbn, hbg, hsc, hval, ?_⟩
                intro j scj hji hju hgcj
                by_cases hjn : j < x.length
                · have hmemj := cand_mem_intro x i lb s.used j scj hjn hji hju hgcj
                  by_cases hjb : j = b2
                  · subst hjb
                    refine ⟨fun h5 => absurd h5 (lt_irrefl _), fun h5 => absurd h5 (lt_irrefl _)⟩
                  · have hside := mem_decomp_side pre post b2 sc2
                      (hdec ▸ cand_pairwise x i lb s.used) (j, scj) (hdec ▸ hmemj)
                    refine ⟨fun hjlt => hpre (j, scj) (hside.1 hjlt), 
                      fun hblt => hpost (j, scj) (hside.2 hblt)⟩
                · rw [getD_of_ge _ _ (by omega), gcand_defFrag] at hgcj
                  exact absurd hgcj (by simp)
          · rw [hbox] at hinv1
            rw [lvl_step_merge _ _ _ _ _ _ hl hku hb hval] at hinv1
            rw [lvl_step_merge _ _ _ _ _ _ hl hku hb hval]
            obtain ⟨⟨f2, g2, hbe⟩, hbk, hbu⟩ := lvl_find_best_facts _ _ _ _ _ hb
            have hbn : b < x.length := hgeo (b, f2, g2) hbe
            have houtk : s.out.getD k defFrag = x.getD k defFrag :=
              huntouched k (le_refl k)
            have hkout : k < s.out.length := by omega
            refine ⟨hinv1, ?_, ?_⟩
            · intro j hj
              rcases List.mem_cons.mp hj with rfl | hj2
              · show py_strip (((s.out.set k _).getD j defFrag).text) ≠ ""
                rw [getD_set_ne _ _ _ _ hbk]
                exact hval
              · have hjk : j ≠ k := fun he => hku (he ▸ hj2)
                show py_strip (((s.out.set k _).getD j defFrag).text) ≠ ""
                rw [getD_set_ne _ _ _ _ hjk]
                exact hne j hj2
            · intro i lb hik hin hbox2 hlab hiu hout
              have hiu2 : i ∉ s.used := fun h5 => hiu (List.mem_cons_of_mem _ h5)
              by_cases hik2 : i = k
              · subst hik2
                exfalso
                rw [getD_set_self _ _ _ hkout] at hout
                have htext := congrArg Frag.text hout
                have htext2 : py_strip ((s.out.getD i defFrag).text) ++ "：" ++
                    py_strip ((s.out.getD b defFrag).text) = (x.getD i defFrag).text := htext
                rw [← htext2] at hlab
                rw [merged_not_label] at hlab
                exact absurd hlab (by simp)
              · have hik3 : i < k := by omega
                rw [getD_set_ne _ _ _ _ hik2] at hout
                rcases hq i lb hik3 hin hbox2 hlab hiu2 hout with hA |
                    ⟨V, sc, hVi, hVn, hVg, hVsc, hVempty, hVall⟩
                · left
                  intro j sc hji hju hgc
                  exact hA j sc hji (fun h5 => hju (List.mem_cons_of_mem _ h5)) hgc
                · right
                  have hVk : V ≠ k := by
                    intro he
                    subst he
                    rw [houtk] at hVempty
                    exact absurd hVempty (label_strip_ne _ hl)
                  refine ⟨V, sc, hVi, hVn, hVg, hVsc, ?_, ?_⟩
                  · show py_strip (((s.out.set k _).getD V defFrag).text) = ""
                    rw [getD_set_ne _ _ _ _ hVk]
                    exact hVempty
                  · intro j sc2 hji hju hgc
                    exact hVall j sc2 hji (fun h5 => hju (List.mem_cons_of_mem _ h5)) hgc

/-- Walking the remaining geometry entries preserves the strengthened
invariant up to the end of the lines. -/
theorem lvl_scan_aux2 (x : List Frag) :
    ∀ (rest : List Frag) (k : ℕ), rest = x.drop k →
      ∀ s : LvlState, lvl_inv2 x k s →
        lvl_inv2 x x.length ((geo_from k rest).foldl (lvl_step (geo_from 0 x)) s) := by
  intro rest
  induction rest with
  | nil =>
    intro k hdrop s hinv2
    simp only [geo_from, List.foldl_nil]
    obtain ⟨⟨hlen, hused, hun, hfr⟩, hne, hqc⟩ := hinv2
    have hnk : x.length ≤ k := by
      by_contra hnk
      have h2 : x.drop k ≠ [] := by
        intro h3
        rw [List.drop_eq_nil_iff] at h3
        omega
      rw [← hdrop] at h2
      exact h2 rfl
    refine ⟨⟨hlen, hused, ?_, hfr⟩, hne, ?_⟩
    · intro i hi
      rw [getD_of_ge _ _ (by omega), getD_of_ge _ _ hi]
    · intro i lb hik hin hbox hlab hiu hout
      exact hqc i lb (by omega) hin hbox hlab hiu hout
  | cons f t ih =>
    intro k hdrop s hinv2
    have hk : k < x.length := by
      by_contra hnk
      have hnil : x.drop k = [] := List.drop_eq_nil_iff.mpr (by omega)
      rw [hnil] at hdrop
      exact absurd hdrop (by simp)
    have hf : x.getD k defFrag = f := by
      have h1 : x.getD k defFrag = (x.drop k).getD 0 defFrag := by
        simp [List.getD_eq_getElem?_getD, List.getElem?_drop]
      rw [h1, ← hdrop]
      rfl
    have ht : t = x.drop (k + 1) := by
      have h2 : x.drop (k + 1) = (x.drop k).drop 1 := by
        rw [List.drop_drop, Nat.add_comm]
      rw [h2, ← hdrop]
      rfl
    show lvl_inv2 x x.length
      ((geo_from (k + 1) t).foldl (lvl_step (geo_from 0 x))
        (lvl_step (geo_from 0 x) s (k, f, box_of f)))
    apply ih (k + 1) ht
    rw [← hf]
    exact lvl_step_preserve2 x k hk s hinv2

/-- The full merge scan satisfies the strengthened invariant. -/
theorem lvl_scan_inv2 (lines : List Frag) :
    lvl_inv2 lines lines.length (lvl_scan lines) := by
  rw [lvl_scan_eq]
  refine lvl_scan_aux2 lines lines 0 (by simp) { out := lines, used := [] }
    ⟨⟨rfl, by simp, fun i hi => rfl, fun i hi => Or.inl rfl⟩, by simp, ?_⟩
  intro i lb hik
  exact absurd hik (by omega)

/-- Reading a mapped second component positionally. -/
theorem map_snd_getD (ps : List (ℕ × Frag)) (p : ℕ) (hp : p < ps.length) :
    (ps.map (fun e => e.2)).getD p defFrag = (ps.getD p (0, defFrag)).2 := by
  rw [List.getD_eq_getElem (ps.map fun e => e.2) defFrag (by simpa using hp),
    List.getD_eq_getElem ps (0, defFrag) hp]
  simp

/-- gcand depends only on the box of the candidate fragment. -/
theorem gcand_congr (lb : Geo) (f g : Frag) (h : f.box = g.box) :
    gcand lb f = gcand lb g := by
  unfold gcand
  rw [box_of_congr f g h]

/-- Positions in the survivor list carry strictly increasing original
indices. -/
theorem surv_getD_mono (used : List ℕ) (out : List Frag) (p q : ℕ)
    (hq2 : q < (surv_from used 0 out).length) (hpq : p < q) :
    ((surv_from used 0 out).getD p (0, defFrag)).1 <
      ((surv_from used 0 out).getD q (0, defFrag)).1 := by
  have hp2 : p < (surv_from used 0 out).length := by omega
  rw [List.getD_eq_getElem _ _ hp2, List.getD_eq_getElem _ _ hq2]
  exact List.pairwise_iff_getElem.mp (surv_from_pairwise used out 0) p q hp2 hq2 hpq

/-- A fold whose step fixes the seed on every input is constant. -/
theorem foldl_fixed {α β : Type} (f : β → α → β) (s : β) :
    ∀ l : List α, (∀ a ∈ l, f s a = s) → l.foldl f s = s := by
  intro l
  induction l with
  | nil => intro h; rfl
  | cons a t ih =>
    intro h
    rw [List.foldl_cons, h a (by simp)]
    exact ih fun b hb => h b (by simp [hb])

/-- Position order in the survivor list reflects original index
order. -/
theorem surv_pos_lt (used : List ℕ) (out : List Frag) (p q jp jq : ℕ)
    (hp : p < (surv_from used 0 out).length) (hq2 : q < (surv_from used 0 out).length)
    (hjp : ((surv_from used 0 out).getD p (0, defFrag)).1 = jp)
    (hjq : ((surv_from used 0 out).getD q (0, defFrag)).1 = jq)
    (h : jp < jq) : p < q := by
  rcases Nat.lt_trichotomy p q with h4 | h4 | h4
  · exact h4
  · subst h4
    rw [hjp] at hjq
    omega
  · have h5 := surv_getD_mono used out q p hp h4
    rw [hjp, hjq] at h5
    omega

/-- Positions in the survivor list with equal original indices
coincide. -/
theorem surv_pos_inj (used : List ℕ) (out : List Frag) (p q jp jq : ℕ)
    (hp : p < (surv_from used 0 out).length) (hq2 : q < (surv_from used 0 out).length)
    (hjp : ((surv_from used 0 out).getD p (0, defFrag)).1 = jp)
    (hjq : ((surv_from used 0 out).getD q (0, defFrag)).1 = jq)
    (h : jp = jq) : p = q := by
  rcases Nat.lt_trichotomy p q with h4 | h4 | h4
  · have h5 := surv_getD_mono used out p q hq2 h4
    rw [hjp, hjq] at h5
    omega
  · exact h4
  · have h5 := surv_getD_mono used out q p hp h4
    rw [hjp, hjq] at h5
    omega

/-- Running the merge scan step on the output of a completed scan never
changes the state: every surviving label either finds no candidate at
all or finds the same empty-text champion it found during the first
scan. -/
theorem run2_no_merge (x y : List Frag)
    (hy : y = (((lvl_scan x).out.enum.filter
      (fun e => !((lvl_scan x).used.contains e.1))).map (fun e => e.2))) :
    ∀ e ∈ geo_from 0 y,
      lvl_step (geo_from 0 y) { out := y, used := [] } e = { out := y, used := [] } := by
  obtain ⟨⟨hlen, husedlt, huntouched, hframe⟩, hne, hq⟩ := lvl_scan_inv2 x
  have hy2 : y = (surv_from (lvl_scan x).used 0 (lvl_scan x).out).map (fun e => e.2) := by
    rw [hy, show (lvl_scan x).out.enum = (lvl_scan x).out.enumFrom 0 from rfl,
      enum_filter_eq_surv_from]
  have hylen : y.length = (surv_from (lvl_scan x).used 0 (lvl_scan x).out).length := by
    rw [hy2]
    simp
  intro e he
  obtain ⟨m, hm, hme⟩ := geo_from_mem_char y 0 e he
  rw [hme]
  simp only [Nat.zero_add]
  have hm2 : m < (surv_from (lvl_scan x).used 0 (lvl_scan x).out).length := by
    rw [← hylen]
    exact hm
  have hsm : (surv_from (lvl_scan x).used 0 (lvl_scan x).out).getD m (0, defFrag) ∈
      surv_from (lvl_scan x).used 0 (lvl_scan x).out := by
    rw [List.getD_eq_getElem _ _ hm2]
    exact List.getElem_mem hm2
  obtain ⟨j, hjlen, hpe, hpc⟩ :=
    surv_from_mem_char (lvl_scan x).used (lvl_scan x).out 0 _ hsm
  rw [Nat.zero_add] at hpe hpc
  have hjn : j < x.length := by
    rw [← hlen]
    exact hjlen
  have hjused : j ∉ (lvl_scan x).used := by
    intro hmem
    have hc2 : (lvl_scan x).used.contains j = true := by simpa using hmem
    rw [hpc] at hc2
    exact absurd hc2 (by simp)
  have hyget : y.getD m defFrag = (lvl_scan x).out.getD j defFrag := by
    rw [hy2, map_snd_getD _ _ hm2, hpe]
  cases hbox : box_of (y.getD m defFrag) with
  | none => exact lvl_step_none _ _ _ _
  | some lb =>
    cases hl : is_label ((y.getD m defFrag).text) with
    | false => exact lvl_step_not_label _ _ _ _ _ hl
    | true =>
      have hjx : (lvl_scan x).out.getD j defFrag = x.getD j defFrag := by
        rcases hframe j hjn with h1 | ⟨hlab2, hconf2, hbox2, j0, hj0u, hj0i, hj0n, hj0e, htxt⟩
        · exact h1
        · exfalso
          rw [hyget, htxt] at hl
          rw [merged_not_label] at hl
          exact absurd hl (by simp)
      have hlabx : is_label ((x.getD j defFrag).text) = true := by
        rw [hyget, hjx] at hl
        exact hl
      have hboxx : box_of (x.getD j defFrag) = some lb := by
        rw [hyget, hjx] at hbox
        exact hbox
      have hquiet := hq j lb hjn hjn hboxx hlabx hjused hjx
      rcases fsm_char ((geo_from 0 y).filterMap (lvl_candidate m lb [])) (none, 10 ^ 18)
        with ⟨hres, hall⟩ | ⟨b2, sc2, pre, post, hdec, hres, hsc, hpre, hpost⟩
      · refine lvl_step_nobest _ _ _ _ _ hl (by simp) ?_
        unfold lvl_find_best
        rw [hres]
      · have hfb : lvl_find_best (geo_from 0 y) [] m lb = some b2 := by
          unfold lvl_find_best
          rw [hres]
        have hsc18 : sc2 < (10 : ℚ) ^ 18 := by simpa using hsc
        have hmemb : (b2, sc2) ∈ (geo_from 0 y).filterMap (lvl_candidate m lb []) := by
          rw [hdec]
          simp
        obtain ⟨hb2y, hb2m, hb2u0, hb2g⟩ := cand_mem_elim y m lb [] (b2, sc2) hmemb
        have hb2len : b2 < (surv_from (lvl_scan x).used 0 (lvl_scan x).out).length := by
          rw [← hylen]
          exact hb2y
        have hsb : (surv_from (lvl_scan x).used 0 (lvl_scan x).out).getD b2 (0, defFrag) ∈
            surv_from (lvl_scan x).used 0 (lvl_scan x).out := by
          rw [List.getD_eq_getElem _ _ hb2len]
          exact List.getElem_mem hb2len
        obtain ⟨j2, hj2len, hpe2, hpc2⟩ :=
          surv_from_mem_char (lvl_scan x).used (lvl_scan x).out 0 _ hsb
        rw [Nat.zero_add] at hpe2 hpc2
        have hj2n : j2 < x.length := by
          rw [← hlen]
          exact hj2len
        have hj2used : j2 ∉ (lvl_scan x).used := by
          intro hmem
          have hc2 : (lvl_scan x).used.contains j2 = true := by simpa using hmem
          rw [hpc2] at hc2
          exact absurd hc2 (by simp)
        have hygetb : y.getD b2 defFrag = (lvl_scan x).out.getD j2 defFrag := by
          rw [hy2, map_snd_getD _ _ hb2len, hpe2]
        have hboxeq : ((lvl_scan x).out.getD j2 defFrag).box = (x.getD j2 defFrag).box := by
          rcases hframe j2 hj2n with h1 | ⟨_, _, hb3, _⟩
          · rw [h1]
          · exact hb3
        have hb2gx : gcand lb (x.getD j2 defFrag) = some sc2 := by
          rw [← gcand_congr lb _ _ hboxeq, ← hygetb]
          exact hb2g
        have hfstm : ((surv_from (lvl_scan x).used 0 (lvl_scan x).out).getD m
            (0, defFrag)).1 = j := by
          rw [hpe]
        have hfstb : ((surv_from (lvl_scan x).used 0 (lvl_scan x).out).getD b2
            (0, defFrag)).1 = j2 := by
          rw [hpe2]
        have hj2j : j2 ≠ j := by
          intro heq
          exact hb2m (surv_pos_inj (lvl_scan x).used (lvl_scan x).out b2 m j2 j
            hb2len hm2 hfstb hfstm heq)
        rcases hquiet with hA | ⟨V, sc, hVi, hVn, hVg, hVsc, hVempty, hVall⟩
        · exact absurd hsc18 (not_lt.mpr (hA j2 sc2 hj2j hj2used hb2gx))
        · by_cases hj2V : j2 = V
          · refine lvl_step_emptyval _ _ _ _ _ _ hl (by simp) hfb ?_
            show py_strip ((y.getD b2 defFrag).text) = ""
            rw [hygetb, hj2V]
            exact hVempty
          · exfalso
            have hVused : V ∉ (lvl_scan x).used := fun hmem => hne V hmem hVempty
            have hVout : V < (lvl_scan x).out.length := by
              rw [hlen]
              exact hVn
            have hVcont : (lvl_scan x).used.contains V = false := by
              cases hc4 : (lvl_scan x).used.contains V with
              | false => rfl
              | true => exact absurd (by simpa using hc4) hVused
            have hVmem := surv_from_mem_intro (lvl_scan x).used (lvl_scan x).out 0 V hVout
              (by simpa using hVcont)
            rw [Nat.zero_add] at hVmem
            obtain ⟨pV, hpVlen, hpVget⟩ := List.mem_iff_getElem.mp hVmem
            have hpVgetD : (surv_from (lvl_scan x).used 0 (lvl_scan x).out).getD pV
                (0, defFrag) = (V, (lvl_scan x).out.getD V defFrag) := by
              rw [List.getD_eq_getElem _ _ hpVlen, hpVget]
            have hfstV : ((surv_from (lvl_scan x).used 0 (lvl_scan x).out).getD pV
                (0, defFrag)).1 = V := by
              rw [hpVgetD]
            have hpVlt : pV < y.length := by
              rw [hylen]
              exact hpVlen
            have hygetV : y.getD pV defFrag = (lvl_scan x).out.getD V defFrag := by
              rw [hy2, map_snd_getD _ _ hpVlen, hpVgetD]
            have hVboxeq : ((lvl_scan x).out.getD V defFrag).box =
                (x.getD V defFrag).box := by
              rcases hframe V hVn with h1 | ⟨_, _, hb3, _⟩
              · rw [h1]
              · exact hb3
            have hVgy : gcand lb (y.getD pV defFrag) = some sc := by
              rw [hygetV, gcand_congr lb _ _ hVboxeq]
              exact hVg
            have hpVm : pV ≠ m := by
              intro heq
              rw [heq, hfstm] at hfstV
              exact hVi hfstV.symm
            have hmemV : (pV, sc) ∈ (geo_from 0 y).filterMap (lvl_candidate m lb []) :=
              cand_mem_intro y m lb [] pV sc hpVlt hpVm (by simp) hVgy
            have hside := mem_decomp_side pre post b2 sc2
              (hdec ▸ cand_pairwise y m lb []) (pV, sc) (hdec ▸ hmemV)
            have hallj2 := hVall j2 sc2 hj2j hj2used hb2gx
            rcases Nat.lt_trichotomy j2 V with h4 | h4 | h4
            · have h5 : b2 < pV := surv_pos_lt (lvl_scan x).used (lvl_scan x).out b2 pV
                j2 V hb2len hpVlen hfstb hfstV h4
              have h7 := hpost (pV, sc) (hside.2 h5)
              have h8 := hallj2.1 h4
              exact absurd h8 (not_lt.mpr h7)
            · exact hj2V h4
            · have h5 : pV < b2 := surv_pos_lt (lvl_scan x).used (lvl_scan x).out pV b2
                V j2 hpVlen hb2len hfstV hfstb h4
              have h7 := hpre (pV, sc) (hside.1 h5)
              have h8 := hallj2.2 h4
              exact absurd h7 (not_lt.mpr h8)

/-- C6: the label-value merge is idempotent on its own output under the
default profile.  Merged labels no longer match the vocabulary (their
text contains a fullwidth colon), consumed values are gone, and every
surviving label re-discovers exactly the situation it saw during the
first scan (no eligible candidate, or the same empty-text champion), so
the second application performs no merge and returns its input
unchanged. -/
theorem c6_merge_idempotent (lines : List Frag) :
    apply_label_value_layout (apply_label_value_layout lines "default") "default" =
      apply_label_value_layout lines "default" := by
  by_cases hg : lines = []
  · subst hg
    rfl
  · by_cases hu : (lvl_scan lines).used = []
    · have hfx : apply_label_value_layout lines "default" = lines := by
        simp only [apply_label_value_layout]
        rw [if_neg (by simp [hg]), if_pos hu]
      rw [hfx]
      exact hfx
    · set y := apply_label_value_layout lines "default" with hydef
      have hyeq : y = (((lvl_scan lines).out.enum.filter
          (fun e => !((lvl_scan lines).used.contains e.1))).map (fun e => e.2)) := by
        rw [hydef]
        simp only [apply_label_value_layout]
        rw [if_neg (by simp [hg]), if_neg hu]
      have hnm := run2_no_merge lines y hyeq
      have hscan : lvl_scan y = { out := y, used := [] } := by
        rw [lvl_scan_eq]
        exact foldl_fixed _ _ _ hnm
      by_cases hy0 : y = []
      · rw [hy0]
        rfl
      · simp only [apply_label_value_layout]
        rw [if_neg (by simp [hy0]), hscan, if_pos rfl]
